import Mathlib

/-!
Verification development for the portfolio-returns repository.

The Python sources (cashflows.py, irr.py) are shallowly embedded below.
Conventions of the embedding:

* Account names, currencies and cashflow kinds are strings, modelled as
  `List Char`.  Regular-expression patterns are modelled as literal strings
  (patterns without metacharacters); `re.Pattern.subn` on such a pattern
  replaces every non-overlapping occurrence of the pattern, scanning left
  to right, exactly as `subn` below does.
* `decimal.Decimal` amounts are modelled as `ℚ` (exact arithmetic);
  `Decimal.quantize(Decimal('.01'))` (default rounding ROUND_HALF_EVEN)
  is `quantizeCents`.
* `datetime.date` is modelled as `ℕ` with its order; adding
  `relativedelta(days=1)` is `(· + 1)`.
* The external beancount collaborators (price map construction, posting
  weight conversion, account realization and inventory valuation) are
  parameters of the embedded functions:
  - `conv : Amount → List Char → ℕ → Amount` stands for
    `beancount.core.convert.convert_amount(weight, currency, price_map, date)`
    (the price map, built once from the entry list, is captured inside it);
  - `iterAccounts : List Transaction → List (List Char)` stands for the
    account names produced by
    `beancount.core.realization.iter_children(realize(entries))`;
  - `accountValue : List Transaction → List Char → List Char → Option Amount`
    stands for `compute_balance` followed by
    `inventory.reduce(convert_position, currency, price_map)` and
    `get_only_position().units`, returning `none` when the market-value
    inventory is empty.
* Python exceptions are modelled with `Except PyErr`; raising aborts the
  whole call, so no partial result is ever returned.
-/

/-- Python exceptions that the embedded code can raise. -/
inductive PyErr where
  | nameError
  | assertionError
  | keyError
  | indexError
deriving DecidableEq, Repr, Inhabited

/-- A posting's converted amount: `beancount.core.data.Amount`. -/
structure Amount where
  number : ℚ
  currency : List Char
deriving DecidableEq, Repr, Inhabited

/-- One leg of a transaction.  `weight` is the value
`beancount.core.convert.get_weight(posting)` that cashflows.py reads from the
posting (cost/price-weighted valuation in the posting's own currency). -/
structure Posting where
  account : List Char
  weight : Amount
deriving DecidableEq, Repr, Inhabited

/-- A ledger transaction: a date and its postings, in ledger order. -/
structure Transaction where
  date : ℕ
  postings : List Posting
deriving DecidableEq, Repr, Inhabited

/-- The Cashflow dataclass of cashflows.py.  `date` is an `Option` because
the ending-balance cashflow stores `end_date_inclusive`, which may be `None`.
The Python `set` fields are modelled as lists with insert-if-absent. -/
structure Cashflow where
  date : Option ℕ
  amount : ℚ
  kind : List Char
  inflow_accounts : List (List Char)
  outflow_accounts : List (List Char)
  entry : Option Transaction
deriving DecidableEq, Repr, Inhabited

/-- Python `re.Pattern.subn(replacement, s)` for a literal pattern `pat`:
replaces the leftmost non-overlapping occurrences of `pat` in `s` by `repl`,
returning the new string and the number of replacements.  An empty pattern
matches at every position. -/
def subn (pat repl : List Char) (s : List Char) : List Char × Nat :=
  match s with
  | [] => if pat.isEmpty then (repl, 1) else ([], 0)
  | c :: rest =>
    if hemp : pat.isEmpty then
      let r := subn pat repl rest
      (repl ++ c :: r.1, r.2 + 1)
    else if hpre : pat.isPrefixOf (c :: rest) then
      let r := subn pat repl ((c :: rest).drop pat.length)
      (repl ++ r.1, r.2 + 1)
    else
      let r := subn pat repl rest
      (c :: r.1, r.2)
termination_by s.length
decreasing_by
  all_goals simp [List.length_drop]
  cases pat with
  | nil => simp at hemp
  | cons p ps => simp

/-- get_asset_account of cashflows.py: iterate over the pattern → replacement
rules in order; the first rule whose pattern matches (subn made at least one
substitution) returns the substituted account name; otherwise None. -/
def get_asset_account (account : List Char) :
    List (List Char × List Char) → Option (List Char)
  | [] => none
  | (pattern, replacement) :: rest =>
    let r := subn pattern replacement account
    if r.2 > 0 then some r.1 else get_asset_account account rest

/-- Names referenced by the f-string that builds the AssertionError message in
get_number (cashflows.py lines 39-41). -/
def assertionMessageNames : List (List Char) :=
  ["converted".data, "entry".data, "posting".data, "currency".data]

/-- Names actually bound in get_number's scope: its two parameters. -/
def getNumberScopeNames : List (List Char) :=
  ["amount".data, "currency".data]

/-- get_number of cashflows.py.  On a currency mismatch the code evaluates an
f-string referencing `converted`, `entry` and `posting`; a name not bound in
the function's scope makes Python raise NameError before the AssertionError
is even constructed.  The name lookup is modelled explicitly. -/
def get_number (amount : Amount) (currency : List Char) : Except PyErr ℚ :=
  if amount.currency ≠ currency then
    .error (if assertionMessageNames.all
              (fun n => getNumberScopeNames.contains n)
            then .assertionError else .nameError)
  else .ok amount.number

/-- Drop the last colon-separated component of an account name:
`"A:B:C" ↦ "A:B"`, `"A" ↦ ""`.  This is the
`components.pop(-1); sep.join(components)` step of
beancount.core.account.parents. -/
def dropLastComponent (a : List Char) : List Char :=
  ((a.reverse.dropWhile (· ≠ ':')).drop 1).reverse

theorem dropLastComponent_length_lt (a : List Char) (h : a ≠ []) :
    (dropLastComponent a).length < a.length := by
  have hs : (a.reverse.dropWhile (· ≠ ':')).length ≤ a.length := by
    calc (a.reverse.dropWhile (· ≠ ':')).length
        ≤ a.reverse.length := (List.dropWhile_sublist _).length_le
      _ = a.length := by simp
  have hlen : 1 ≤ a.length := by
    cases a with
    | nil => simp at h
    | cons c l => simp
  simp only [dropLastComponent, List.length_reverse, List.length_drop]
  omega

/-- beancount.core.account.parents: the account itself followed by each of
its ancestors, stopping before the empty name. -/
def parents (a : List Char) : List (List Char) :=
  if h : a = [] then [] else a :: parents (dropLastComponent a)
termination_by a.length
decreasing_by
  exact dropLastComponent_length_lt a h

/-- Decimal.quantize(Decimal('.01')) with the default ROUND_HALF_EVEN
rounding: round to the nearest multiple of 1/100, ties to the even
multiple. -/
def quantizeCents (x : ℚ) : ℚ :=
  let y : ℚ := 100 * x
  let n : ℤ := ⌊y⌋
  let frac : ℚ := y - n
  let r : ℤ :=
    if frac < 1/2 then n
    else if 1/2 < frac then n + 1
    else if n % 2 = 0 then n else n + 1
  (r : ℚ) / 100

/-- beancount.core.account_types.is_account_type for the Assets category:
the account is "Assets" or starts with "Assets:". -/
def is_assets (account : List Char) : Bool :=
  account = "Assets".data ∨ ("Assets:".data).isPrefixOf account

/-- Python dict/defaultdict update `m[k] = f(m[k])` on an insertion-ordered
association list, where a missing key is first created with default `d`
(placed at the end, as dict insertion order does). -/
def updOrInsert {K V : Type} [DecidableEq K]
    (m : List (K × V)) (k : K) (f : V → V) (d : V) : List (K × V) :=
  if m.any (fun p => p.1 = k) then
    m.map (fun p => if p.1 = k then (p.1, f p.2) else p)
  else m ++ [(k, f d)]

/-- Lookup in an insertion-ordered association list (Python `m[k]` when the
key is present; `none` models KeyError / absence). -/
def lookupList {K V : Type} [DecidableEq K] (m : List (K × V)) (k : K) :
    Option V :=
  (m.find? (fun p => p.1 = k)).map (·.2)

/-- Python dict construction from a pair sequence: the first occurrence of a
key fixes its position, the last fixes its value. -/
def dictOfPairs {K V : Type} [DecidableEq K] (ps : List (K × V)) :
    List (K × V) :=
  ps.foldl (fun m p => updOrInsert m p.1 (fun _ => p.2) p.2) []

/-- The transactions used to realize balances for a cutoff: those strictly
before the date, or all of them when the date is None (cashflows.py lines
49-53). -/
def realizedEntriesFor (entries : List Transaction) (date : Option ℕ) :
    List Transaction :=
  match date with
  | none => entries
  | some d => entries.filter (fun e => e.date < d)

/-- get_market_values_by_asset_account of cashflows.py.  Balances are
realized from the transactions strictly before `date` (all of them when
`date` is None); each Assets-typed realized account that resolves to an
asset-account bucket and has a non-empty market-value inventory contributes
its converted value to the bucket's total (a defaultdict of Decimal). -/
def get_market_values_by_asset_account
    (accountValue : List Transaction → List Char → List Char → Option Amount)
    (iterAccounts : List Transaction → List (List Char))
    (entries : List Transaction)
    (asset_account_map : List (List Char × List Char))
    (date : Option ℕ) (currency : List Char) :
    Except PyErr (List (List Char × ℚ)) :=
  let realizedEntries := realizedEntriesFor entries date
  (iterAccounts realizedEntries).foldlM (fun mv acct =>
    if ¬ is_assets acct then pure mv
    else match get_asset_account acct asset_account_map with
      | none => pure mv
      | some balance_asset_account =>
        match accountValue realizedEntries acct currency with
        | none => pure mv
        | some units => do
            let market_value ← get_number units currency
            pure (updOrInsert mv balance_asset_account (· + market_value) 0))
    []

/-- The defaultdict default of the per-transaction pending map:
Cashflow(date=entry.date, amount=0, kind='txn', entry=entry). -/
def defaultCashflow (entry : Transaction) : Cashflow :=
  ⟨some entry.date, 0, "txn".data, [], [], some entry⟩

/-- Python set.add on the list model: append if absent. -/
def addSet (l : List (List Char)) (a : List Char) : List (List Char) :=
  if a ∈ l then l else l ++ [a]

/-- One iteration of the posting loop of get_cashflows_by_asset_account
(cashflows.py lines 109-115): convert the posting's weight, and if its
account resolves to an asset account, add the converted value to the pending
cashflow of that bucket and of every ancestor bucket. -/
def processPosting (conv : Amount → List Char → ℕ → Amount)
    (currency : List Char) (asset_account_map : List (List Char × List Char))
    (entry : Transaction) (pending : List (List Char × Cashflow))
    (posting : Posting) : Except PyErr (List (List Char × Cashflow)) := do
  let value ← get_number (conv posting.weight currency entry.date) currency
  match get_asset_account posting.account asset_account_map with
  | none => pure pending
  | some asset_account =>
      pure ((parents asset_account).foldl
        (fun pend a =>
          updOrInsert pend a
            (fun cf => { cf with amount := cf.amount + value })
            (defaultCashflow entry))
        pending)

/-- The diagnostic classification of one posting (cashflows.py lines
119-128): a posting not belonging to the bucket's subtree records its
account as an outflow (positive weight) or inflow (otherwise) account. -/
def classifyPosting (asset_account_map : List (List Char × List Char))
    (asset_account : List Char) (cf : Cashflow) (posting : Posting) :
    Cashflow :=
  let posting_asset_account := get_asset_account posting.account asset_account_map
  if (match posting_asset_account with
      | none => true
      | some paa => ¬ asset_account ∈ parents paa) then
    if posting.weight.number > 0 then
      { cf with outflow_accounts := addSet cf.outflow_accounts posting.account }
    else
      { cf with inflow_accounts := addSet cf.inflow_accounts posting.account }
  else cf

/-- Processing of one in-window transaction (cashflows.py lines 106-129):
accumulate the pending per-bucket cashflows over the postings, then emit, in
pending-map insertion order, every pending cashflow whose amount does not
round to zero at two decimal places, with its contributor classification. -/
def processEntry (conv : Amount → List Char → ℕ → Amount)
    (currency : List Char) (asset_account_map : List (List Char × List Char))
    (entry : Transaction) : Except PyErr (List (List Char × Cashflow)) := do
  let pending ← entry.postings.foldlM
    (processPosting conv currency asset_account_map entry) []
  pure (pending.foldl (fun acc p =>
    if quantizeCents p.2.amount ≠ 0 then
      acc ++ [(p.1, entry.postings.foldl
        (classifyPosting asset_account_map p.1) p.2)]
    else acc) [])

/-- The date-window test of cashflows.py lines 103-104. -/
def inWindow (start_date_inclusive end_date_inclusive : Option ℕ)
    (entry : Transaction) : Bool :=
  (match start_date_inclusive with
   | none => true
   | some s => s ≤ entry.date) &&
  (match end_date_inclusive with
   | none => true
   | some d => entry.date ≤ d)

/-- One iteration of the transaction loop: skip out-of-window transactions,
process the others and append their emitted cashflows to the per-bucket
lists (a defaultdict of lists). -/
def mainLoopStep (conv : Amount → List Char → ℕ → Amount)
    (asset_account_map : List (List Char × List Char))
    (start_date_inclusive end_date_inclusive : Option ℕ)
    (currency : List Char) (m : List (List Char × List Cashflow))
    (entry : Transaction) :
    Except PyErr (List (List Char × List Cashflow)) :=
  if inWindow start_date_inclusive end_date_inclusive entry then do
    let emitted ← processEntry conv currency asset_account_map entry
    pure (emitted.foldl
      (fun m p => updOrInsert m p.1 (· ++ [p.2]) []) m)
  else pure m

/-- The transaction loop of get_cashflows_by_asset_account (cashflows.py
lines 102-129). -/
def mainLoop (conv : Amount → List Char → ℕ → Amount)
    (asset_account_map : List (List Char × List Char))
    (start_date_inclusive end_date_inclusive : Option ℕ)
    (currency : List Char) (entries : List Transaction) :
    Except PyErr (List (List Char × List Cashflow)) :=
  entries.foldlM (mainLoopStep conv asset_account_map start_date_inclusive
    end_date_inclusive currency) []

/-- The starting-balance block of cashflows.py lines 131-139: when a start
date is supplied, compute the market values as of the beginning of the start
date and insert a starting-balance cashflow at position 0 of each valued
bucket's list. -/
def addStartingBalances
    (accountValue : List Transaction → List Char → List Char → Option Amount)
    (iterAccounts : List Transaction → List (List Char))
    (entries : List Transaction)
    (asset_account_map : List (List Char × List Char))
    (start_date_inclusive : Option ℕ) (currency : List Char)
    (m : List (List Char × List Cashflow)) :
    Except PyErr (List (List Char × List Cashflow)) :=
  match start_date_inclusive with
  | none => pure m
  | some s => do
      let mvs ← get_market_values_by_asset_account accountValue iterAccounts
        entries asset_account_map (some s) currency
      pure (mvs.foldl (fun m p =>
        updOrInsert m p.1
          (fun l => ⟨some s, p.2, "starting balance".data, [], [], none⟩ :: l)
          []) m)

/-- The ending-balance block of cashflows.py lines 141-149: compute the
market values with cutoff end+1 day (no cutoff when the end date is absent)
and append an ending-balance cashflow, dated end_date_inclusive, with the
negated value, to each valued bucket's list. -/
def addEndingBalances
    (accountValue : List Transaction → List Char → List Char → Option Amount)
    (iterAccounts : List Transaction → List (List Char))
    (entries : List Transaction)
    (asset_account_map : List (List Char × List Char))
    (end_date_inclusive : Option ℕ) (currency : List Char)
    (m : List (List Char × List Cashflow)) :
    Except PyErr (List (List Char × List Cashflow)) := do
  let mvs ← get_market_values_by_asset_account accountValue iterAccounts
    entries asset_account_map (end_date_inclusive.map (· + 1)) currency
  pure (mvs.foldl (fun m p =>
    updOrInsert m p.1
      (fun l => l ++ [⟨end_date_inclusive, -p.2, "ending balance".data, [], [], none⟩])
      []) m)

/-- get_cashflows_by_asset_account of cashflows.py.  The re.compile step is
the identity in this model (patterns are literal), and the final
dict(defaultdict) conversion is the identity on the association list. -/
def get_cashflows_by_asset_account
    (conv : Amount → List Char → ℕ → Amount)
    (accountValue : List Transaction → List Char → List Char → Option Amount)
    (iterAccounts : List Transaction → List (List Char))
    (entries : List Transaction)
    (asset_account_map : List (List Char × List Char))
    (start_date_inclusive end_date_inclusive : Option ℕ)
    (currency : List Char) :
    Except PyErr (List (List Char × List Cashflow)) := do
  let m ← mainLoop conv asset_account_map start_date_inclusive
    end_date_inclusive currency entries
  let m ← addStartingBalances accountValue iterAccounts entries
    asset_account_map start_date_inclusive currency m
  let m ← addEndingBalances accountValue iterAccounts entries
    asset_account_map end_date_inclusive currency m
  pure m

/-- The placeholder bucket name used by get_cashflows. -/
def placeholder_asset_account : List Char :=
  "Assets:_AssetAccountForCashflows".data

/-- get_cashflows of cashflows.py: map every interesting or internal account
pattern to the placeholder bucket and index the extraction result by the
placeholder key unconditionally (Python raises KeyError when the key is
absent). -/
def get_cashflows
    (conv : Amount → List Char → ℕ → Amount)
    (accountValue : List Transaction → List Char → List Char → Option Amount)
    (iterAccounts : List Transaction → List (List Char))
    (entries : List Transaction)
    (interesting_accounts internal_accounts : List (List Char))
    (date_from : Option ℕ) (date_to : ℕ) (currency : List Char) :
    Except PyErr (List Cashflow) := do
  let asset_account_map := dictOfPairs
    ((interesting_accounts ++ internal_accounts).map
      (fun pattern => (pattern, placeholder_asset_account)))
  let m ← get_cashflows_by_asset_account conv accountValue iterAccounts
    entries asset_account_map date_from (some date_to) currency
  match lookupList m placeholder_asset_account with
  | some cashflows => pure cashflows
  | none => .error .keyError

/-- xnpv of irr.py, with the floating-point power operation abstracted as a
parameter: sort the cashflows by date, take the first date as t0 (an
IndexError on an empty list), and sum amount / (1+rate)^((t-t0)/365) in list
order. -/
def xnpv (power : ℚ → ℚ → ℚ) (rate : ℚ) (cashflows : List (ℕ × ℚ)) :
    Except PyErr ℚ :=
  let chron_order := cashflows.mergeSort (fun a b => a.1 ≤ b.1)
  match chron_order with
  | [] => .error .indexError
  | c0 :: _ =>
      .ok (chron_order.foldl
        (fun acc tc =>
          acc + tc.2 / power (1 + rate) (((tc.1 : ℚ) - (c0.1 : ℚ)) / 365))
        0)

/-! ### Association-list lemmas -/

theorem lookupList_nil {K V : Type} [DecidableEq K] (k : K) :
    lookupList ([] : List (K × V)) k = none := rfl

theorem lookupList_cons {K V : Type} [DecidableEq K] (p : K × V)
    (m : List (K × V)) (k : K) :
    lookupList (p :: m) k = if p.1 = k then some p.2 else lookupList m k := by
  by_cases h : p.1 = k
  · simp [lookupList, List.find?_cons_of_pos, h]
  · simp [lookupList, List.find?_cons_of_neg, h]

theorem lookupList_append {K V : Type} [DecidableEq K] (m m' : List (K × V))
    (k : K) :
    lookupList (m ++ m') k =
      ((lookupList m k).orElse (fun _ => lookupList m' k)) := by
  simp [lookupList, List.find?_append]
  cases m.find? (fun p => p.1 = k) <;> simp [Option.orElse]

theorem lookupList_isSome_iff {K V : Type} [DecidableEq K]
    (m : List (K × V)) (k : K) :
    (lookupList m k).isSome ↔ ∃ p ∈ m, p.1 = k := by
  simp [lookupList, List.find?_isSome]

theorem any_keys_iff {K V : Type} [DecidableEq K] (m : List (K × V)) (k : K) :
    (m.any (fun p => p.1 = k)) = true ↔ (lookupList m k).isSome := by
  rw [lookupList_isSome_iff]
  simp [List.any_eq_true]

theorem lookupList_eq_none_of_any_false {K V : Type} [DecidableEq K]
    {m : List (K × V)} {k : K} (h : ¬ m.any (fun p => p.1 = k)) :
    lookupList m k = none := by
  rcases hl : lookupList m k with _ | v
  · rfl
  · exact absurd ((any_keys_iff m k).mpr (by simp [hl])) h

theorem lookupList_map_upd {K V : Type} [DecidableEq K] (m : List (K × V))
    (k : K) (f : V → V) :
    lookupList (m.map (fun p => if p.1 = k then (p.1, f p.2) else p)) k =
      (lookupList m k).map f := by
  induction m with
  | nil => rfl
  | cons p m ih =>
    by_cases h : p.1 = k
    · simp [h, lookupList_cons]
    · simp [h, lookupList_cons, ih]

theorem lookupList_map_upd_ne {K V : Type} [DecidableEq K] (m : List (K × V))
    (k k' : K) (f : V → V) (hne : k' ≠ k) :
    lookupList (m.map (fun p => if p.1 = k then (p.1, f p.2) else p)) k' =
      lookupList m k' := by
  induction m with
  | nil => rfl
  | cons p m ih =>
    by_cases h : p.1 = k
    · have : k ≠ k' := fun hh => hne hh.symm
      simp [h, lookupList_cons, ih, this]
    · simp [h, lookupList_cons, ih]

theorem lookup_updOrInsert_self {K V : Type} [DecidableEq K]
    (m : List (K × V)) (k : K) (f : V → V) (d : V) :
    lookupList (updOrInsert m k f d) k =
      some (f ((lookupList m k).getD d)) := by
  unfold updOrInsert
  by_cases h : m.any (fun p => p.1 = k)
  · rcases Option.isSome_iff_exists.mp ((any_keys_iff m k).mp h) with ⟨v, hv⟩
    simp [h, lookupList_map_upd, hv]
  · have hnone := lookupList_eq_none_of_any_false h
    simp [h, lookupList_append, hnone, lookupList_cons, Option.orElse]

theorem lookup_updOrInsert_ne {K V : Type} [DecidableEq K]
    (m : List (K × V)) (k k' : K) (f : V → V) (d : V) (hne : k' ≠ k) :
    lookupList (updOrInsert m k f d) k' = lookupList m k' := by
  unfold updOrInsert
  by_cases h : m.any (fun p => p.1 = k)
  · simp [h, lookupList_map_upd_ne m k k' f hne]
  · have : k ≠ k' := fun hh => hne hh.symm
    simp [h, lookupList_append, lookupList_cons, this, Option.orElse]
    cases lookupList m k' <;> simp [lookupList_nil]

theorem updOrInsert_forall_values {K V : Type} [DecidableEq K]
    (Q : V → Prop) {m : List (K × V)} (k : K) (f : V → V) (d : V)
    (hm : ∀ p ∈ m, Q p.2) (hf : ∀ v, Q v → Q (f v)) (hd : Q (f d)) :
    ∀ p ∈ updOrInsert m k f d, Q p.2 := by
  intro p hp
  unfold updOrInsert at hp
  by_cases h : m.any (fun q => q.1 = k)
  · rw [if_pos h] at hp
    rcases List.mem_map.mp hp with ⟨q, hq, rfl⟩
    by_cases hqk : q.1 = k
    · rw [if_pos hqk]
      exact hf _ (hm q hq)
    · rw [if_neg hqk]
      exact hm q hq
  · rw [if_neg h] at hp
    rcases List.mem_append.mp hp with hp | hp
    · exact hm p hp
    · rcases List.mem_singleton.mp hp with rfl
      exact hd

theorem updOrInsert_keys_nodup {K V : Type} [DecidableEq K]
    {m : List (K × V)} (k : K) (f : V → V) (d : V)
    (h : (m.map Prod.fst).Nodup) :
    ((updOrInsert m k f d).map Prod.fst).Nodup := by
  unfold updOrInsert
  by_cases hh : m.any (fun p => p.1 = k)
  · rw [if_pos hh, List.map_map]
    have hcomp : (Prod.fst ∘ fun p : K × V => if p.1 = k then (p.1, f p.2) else p)
        = Prod.fst := by
      funext p
      by_cases hp : p.1 = k <;> simp [hp]
    rw [hcomp]
    exact h
  · rw [if_neg hh, List.map_append, List.nodup_append]
    refine ⟨h, List.nodup_singleton _, ?_⟩
    intro a ha hb
    simp at hb
    subst hb
    rcases List.mem_map.mp ha with ⟨p, hp, hpk⟩
    exact absurd (List.any_eq_true.mpr ⟨p, hp, by simp [hpk]⟩) hh

theorem lookupList_eq_none_of_not_mem_keys {K V : Type} [DecidableEq K]
    {ps : List (K × V)} {k : K} (h : k ∉ ps.map Prod.fst) :
    lookupList ps k = none := by
  apply lookupList_eq_none_of_any_false
  intro hany
  rcases List.any_eq_true.mp hany with ⟨p, hp, hpk⟩
  simp at hpk
  exact h (List.mem_map.mpr ⟨p, hp, hpk⟩)

theorem lookup_foldl_updOrInsert {K V A : Type} [DecidableEq K]
    (u : A → V → V) (d : V) :
    ∀ (ps : List (K × A)), (ps.map Prod.fst).Nodup →
      ∀ (m : List (K × V)) (k : K),
      lookupList (ps.foldl (fun m p => updOrInsert m p.1 (u p.2) d) m) k =
        (match lookupList ps k with
         | some a => some (u a ((lookupList m k).getD d))
         | none => lookupList m k) := by
  intro ps
  induction ps with
  | nil => intro _ m k; rfl
  | cons p ps ih =>
    intro hnd m k
    rw [List.map_cons, List.nodup_cons] at hnd
    rw [List.foldl_cons, ih hnd.2, lookupList_cons]
    by_cases hk : p.1 = k
    · subst hk
      have hnone : lookupList ps p.1 = none :=
        lookupList_eq_none_of_not_mem_keys hnd.1
      simp [hnone, lookup_updOrInsert_self]
    · have hne : k ≠ p.1 := fun hh => hk hh.symm
      simp [hk, lookup_updOrInsert_ne m p.1 k (u p.2) d hne]

theorem foldl_updOrInsert_forall {K V A : Type} [DecidableEq K]
    (u : A → V → V) (d : V) (Q : V → Prop) :
    ∀ (ps : List (K × A)) (m : List (K × V)),
      (∀ p ∈ m, Q p.2) →
      (∀ p ∈ ps, ∀ v, Q v → Q (u p.2 v)) →
      (∀ p ∈ ps, Q (u p.2 d)) →
      ∀ q ∈ ps.foldl (fun m p => updOrInsert m p.1 (u p.2) d) m, Q q.2 := by
  intro ps
  induction ps with
  | nil => intro m hm _ _; exact hm
  | cons p ps ih =>
    intro m hm hstep hnew
    rw [List.foldl_cons]
    refine ih _ ?_ (fun q hq => hstep q (List.mem_cons_of_mem _ hq))
      (fun q hq => hnew q (List.mem_cons_of_mem _ hq))
    exact updOrInsert_forall_values Q p.1 (u p.2) d hm
      (hstep p (List.mem_cons_self _ _)) (hnew p (List.mem_cons_self _ _))

theorem foldl_updOrInsert_keys_nodup {K V A : Type} [DecidableEq K]
    (u : A → V → V) (d : V) :
    ∀ (ps : List (K × A)) (m : List (K × V)),
      (m.map Prod.fst).Nodup →
      ((ps.foldl (fun m p => updOrInsert m p.1 (u p.2) d) m).map Prod.fst).Nodup := by
  intro ps
  induction ps with
  | nil => intro m hm; exact hm
  | cons p ps ih =>
    intro m hm
    rw [List.foldl_cons]
    exact ih _ (updOrInsert_keys_nodup p.1 (u p.2) d hm)

/-! ### Except-monad utilities -/

theorem except_bind_ok {ε α β : Type} {x : Except ε α} {f : α → Except ε β}
    {b : β} : (x >>= f) = .ok b ↔ ∃ a, x = .ok a ∧ f a = .ok b := by
  cases x <;> simp [Bind.bind, Except.bind]

theorem except_map_ok {ε α β : Type} {x : Except ε α} {f : α → β} {b : β} :
    (f <$> x) = .ok b ↔ ∃ a, x = .ok a ∧ f a = b := by
  cases x <;> simp [Functor.map, Except.map]

theorem foldlM_except_inv {ε σ α : Type} (f : σ → α → Except ε σ)
    (P : σ → Prop)
    (hstep : ∀ s a s', P s → f s a = .ok s' → P s') :
    ∀ (l : List α) (s s' : σ), P s → l.foldlM f s = .ok s' → P s' := by
  intro l
  induction l with
  | nil =>
    intro s s' hs h
    rw [List.foldlM_nil] at h
    cases h
    exact hs
  | cons a l ih =>
    intro s s' hs h
    rw [List.foldlM_cons] at h
    rcases except_bind_ok.mp h with ⟨s₁, h₁, h₂⟩
    exact ih s₁ s' (hstep s a s₁ hs h₁) h₂

theorem foldlM_except_ok {ε σ α : Type} (f : σ → α → Except ε σ)
    (P : σ → Prop)
    (hstep : ∀ s, P s → ∀ a, ∃ s', f s a = .ok s' ∧ P s') :
    ∀ (l : List α) (s : σ), P s →
      ∃ s', l.foldlM f s = .ok s' ∧ P s' := by
  intro l
  induction l with
  | nil =>
    intro s hs
    exact ⟨s, rfl, hs⟩
  | cons a l ih =>
    intro s hs
    rcases hstep s hs a with ⟨s₁, h₁, hP₁⟩
    rcases ih s₁ hP₁ with ⟨s', h₂, hP'⟩
    refine ⟨s', ?_, hP'⟩
    rw [List.foldlM_cons, h₁]
    exact h₂

/-! ### Lemmas about parents -/

theorem parents_nil : parents [] = [] := by
  rw [parents]
  simp

theorem parents_cons {a : List Char} (h : a ≠ []) :
    parents a = a :: parents (dropLastComponent a) := by
  rw [parents]
  simp [h]

theorem mem_parents_length_le :
    ∀ (a : List Char), ∀ b ∈ parents a, b.length ≤ a.length := by
  intro a
  induction a using parents.induct with
  | case1 =>
    rw [parents_nil]
    intro b hb
    exact absurd hb (List.not_mem_nil b)
  | case2 a ha ih =>
    rw [parents_cons ha]
    intro b hb
    rcases List.mem_cons.mp hb with rfl | hb
    · exact le_refl _
    · exact le_trans (ih b hb) (le_of_lt (dropLastComponent_length_lt a ha))

theorem parents_nodup : ∀ (a : List Char), (parents a).Nodup := by
  intro a
  induction a using parents.induct with
  | case1 =>
    rw [parents_nil]
    exact List.nodup_nil
  | case2 a ha ih =>
    rw [parents_cons ha]
    refine List.nodup_cons.mpr ⟨?_, ih⟩
    intro hmem
    have hle := mem_parents_length_le (dropLastComponent a) a hmem
    have hlt := dropLastComponent_length_lt a ha
    omega

theorem self_mem_parents {a : List Char} (h : a ≠ []) : a ∈ parents a := by
  rw [parents_cons h]
  exact List.mem_cons_self _ _

/-! ### Lemmas about get_number -/

theorem get_number_ok_iff (amount : Amount) (currency : List Char) (q : ℚ) :
    get_number amount currency = .ok q ↔
      amount.currency = currency ∧ q = amount.number := by
  unfold get_number
  by_cases h : amount.currency = currency
  · simp [h]
    exact comm
  · simp [h]

theorem get_number_mismatch (amount : Amount) (currency : List Char)
    (h : amount.currency ≠ currency) :
    get_number amount currency = .error .nameError := by
  unfold get_number
  rw [if_pos h]
  have : (assertionMessageNames.all
      (fun n => getNumberScopeNames.contains n)) = false := by decide
  rw [this]
  simp

theorem get_number_isOk_iff (amount : Amount) (currency : List Char) :
    (∃ q, get_number amount currency = .ok q) ↔
      amount.currency = currency := by
  constructor
  · intro ⟨q, hq⟩
    exact ((get_number_ok_iff amount currency q).mp hq).1
  · intro h
    exact ⟨amount.number, (get_number_ok_iff amount currency amount.number).mpr
      ⟨h, rfl⟩⟩

/-! ### Lemmas about subn and get_asset_account -/

theorem subn_count_pos_iff (pat repl : List Char) :
    ∀ s : List Char,
      0 < (subn pat repl s).2 ↔ ∃ pre post, s = pre ++ pat ++ post := by
  intro s
  induction s using subn.induct pat repl with
  | case1 hemp =>
    have hp : pat = [] := List.isEmpty_iff.mp hemp
    subst hp
    constructor
    · intro _
      exact ⟨[], [], rfl⟩
    · intro _
      rw [subn]
      simp
  | case2 hemp =>
    constructor
    · intro hc
      rw [subn, if_neg hemp] at hc
      simp at hc
    · rintro ⟨pre, post, hh⟩
      have hlen := congrArg List.length hh
      simp at hlen
      have hp : pat = [] := List.length_eq_zero.mp (by omega)
      rw [hp] at hemp
      simp at hemp
  | case3 c rest hemp ih =>
    have hp : pat = [] := List.isEmpty_iff.mp hemp
    constructor
    · intro _
      exact ⟨[], c :: rest, by simp [hp]⟩
    · intro _
      rw [subn]
      simp [hemp]
  | case4 c rest hemp hpre ih =>
    constructor
    · intro _
      rcases List.isPrefixOf_iff_prefix.mp hpre with ⟨t, ht⟩
      exact ⟨[], t, by simp [← ht]⟩
    · intro _
      rw [subn]
      simp [hemp, hpre]
  | case5 c rest hemp hpre ih =>
    have key : (subn pat repl (c :: rest)).2 = (subn pat repl rest).2 := by
      rw [subn]
      simp [hemp, hpre]
    rw [key]
    constructor
    · intro hc
      rcases ih.mp hc with ⟨pre, post, hh⟩
      exact ⟨c :: pre, post, by simp [hh]⟩
    · rintro ⟨pre, post, hh⟩
      cases pre with
      | nil =>
        simp at hh
        exact absurd (List.isPrefixOf_iff_prefix.mpr ⟨post, hh.symm⟩) hpre
      | cons c0 pre =>
        simp at hh
        exact ih.mpr ⟨pre, post, hh.2.trans (List.append_assoc _ _ _).symm⟩

theorem get_asset_account_eq_none_iff (account : List Char)
    (rules : List (List Char × List Char)) :
    get_asset_account account rules = none ↔
      ∀ pr ∈ rules, (subn pr.1 pr.2 account).2 = 0 := by
  induction rules with
  | nil => simp [get_asset_account]
  | cons pr rules ih =>
    rcases pr with ⟨pattern, replacement⟩
    simp only [get_asset_account]
    by_cases h : (subn pattern replacement account).2 > 0
    · rw [if_pos h]
      refine iff_of_false (by simp) ?_
      intro hall
      have := hall (pattern, replacement) (List.mem_cons_self _ _)
      simp at this
      omega
    · rw [if_neg h]
      rw [ih]
      constructor
      · intro hall pr hpr
        rcases List.mem_cons.mp hpr with rfl | hpr
        · simp
          omega
        · exact hall pr hpr
      · intro hall pr hpr
        exact hall pr (List.mem_cons_of_mem _ hpr)

theorem get_asset_account_first_match (account : List Char)
    (l1 : List (List Char × List Char)) (pat rep : List Char)
    (l2 : List (List Char × List Char))
    (h1 : ∀ pr ∈ l1, (subn pr.1 pr.2 account).2 = 0)
    (h2 : 0 < (subn pat rep account).2) :
    get_asset_account account (l1 ++ (pat, rep) :: l2) =
      some (subn pat rep account).1 := by
  induction l1 with
  | nil =>
    rw [List.nil_append]
    simp only [get_asset_account]
    rw [if_pos h2]
  | cons pr l1 ih =>
    rcases pr with ⟨pattern, replacement⟩
    rw [List.cons_append]
    simp only [get_asset_account]
    have h0 : (subn pattern replacement account).2 = 0 :=
      h1 (pattern, replacement) (List.mem_cons_self _ _)
    rw [if_neg (by omega)]
    exact ih (fun q hq => h1 q (List.mem_cons_of_mem _ hq))

/-! ### Claim C3 -/

/-- C3 counterexample: the rule pattern "Brokerage" does not match at a
prefix (the beginning) of the account name "Assets:Brokerage", yet
get_asset_account still applies its replacement, because re.Pattern.subn
substitutes occurrences anywhere in the string.  So matching is not
restricted to prefixes of the account name. -/
theorem c3_match_not_only_at_prefix :
    get_asset_account "Assets:Brokerage".data
        [("Brokerage".data, "X".data)] = some "Assets:X".data ∧
      ("Brokerage".data.isPrefixOf "Assets:Brokerage".data) = false := by
  constructor
  · simp [get_asset_account, subn]
  · decide

/-- C3 (amended): for every account name and every ordered rule map,
get_asset_account returns the result of substituting the first rule, in
declaration order, whose pattern matches, and returns nothing when no rule
matches; a rule's pattern matches an account name exactly when the pattern
occurs anywhere in that name (not only at a prefix), and the returned name
is the account with every occurrence of the pattern replaced. -/
theorem c3_first_match_wins (account : List Char)
    (l1 : List (List Char × List Char)) (pat rep : List Char)
    (l2 : List (List Char × List Char))
    (h1 : ∀ pr ∈ l1, (subn pr.1 pr.2 account).2 = 0)
    (h2 : 0 < (subn pat rep account).2) :
    get_asset_account account (l1 ++ (pat, rep) :: l2) =
        some (subn pat rep account).1 ∧
      (∀ rules : List (List Char × List Char),
        get_asset_account account rules = none ↔
          ∀ pr ∈ rules, (subn pr.1 pr.2 account).2 = 0) ∧
      (∀ p r : List Char,
        0 < (subn p r account).2 ↔ ∃ pre post, account = pre ++ p ++ post) := by
  refine ⟨get_asset_account_first_match account l1 pat rep l2 h1 h2, ?_, ?_⟩
  · intro rules
    exact get_asset_account_eq_none_iff account rules
  · intro p r
    exact subn_count_pos_iff p r account

/-- C3 witness: the amended first-match statement applied at a concrete
account and rule list. -/
theorem c3_first_match_wins_witness :
    get_asset_account "Assets:Brokerage".data
        ([("ZZZ".data, "W".data)] ++ ("Brokerage".data, "X".data) :: []) =
        some (subn "Brokerage".data "X".data "Assets:Brokerage".data).1 ∧
      (∀ rules : List (List Char × List Char),
        get_asset_account "Assets:Brokerage".data rules = none ↔
          ∀ pr ∈ rules, (subn pr.1 pr.2 "Assets:Brokerage".data).2 = 0) ∧
      (∀ p r : List Char,
        0 < (subn p r "Assets:Brokerage".data).2 ↔
          ∃ pre post, "Assets:Brokerage".data = pre ++ p ++ post) := by
  refine c3_first_match_wins "Assets:Brokerage".data
    [("ZZZ".data, "W".data)] "Brokerage".data "X".data [] ?_ ?_
  · intro pr hpr
    rcases List.mem_singleton.mp hpr with rfl
    simp [subn]
  · simp [subn]

/-! ### Claim C10 -/

/-- C10: for every amount whose currency differs from the requested
currency, get_number raises NameError (not the intended AssertionError),
because the f-string of the AssertionError message references the names
converted, entry and posting, none of which is bound in get_number's scope;
for a matching currency it returns the amount's number unchanged. -/
theorem c10_get_number_name_error (amount : Amount) (currency : List Char) :
    (amount.currency ≠ currency →
      get_number amount currency = .error .nameError ∧
        ∃ n ∈ assertionMessageNames, ¬ getNumberScopeNames.contains n) ∧
    (amount.currency = currency →
      get_number amount currency = .ok amount.number) := by
  constructor
  · intro h
    refine ⟨get_number_mismatch amount currency h, "converted".data, ?_, ?_⟩
    · simp [assertionMessageNames]
    · decide
  · intro h
    exact (get_number_ok_iff amount currency amount.number).mpr ⟨h, rfl⟩

/-- C10 witness: both branches at concrete amounts. -/
theorem c10_get_number_name_error_witness :
    get_number ⟨1, "EUR".data⟩ "USD".data = .error .nameError ∧
      get_number ⟨1, "USD".data⟩ "USD".data = .ok 1 := by
  constructor
  · exact ((c10_get_number_name_error ⟨1, "EUR".data⟩ "USD".data).1
      (by decide)).1
  · exact (c10_get_number_name_error ⟨1, "USD".data⟩ "USD".data).2 rfl

/-! ### Claim C7 -/

/-- C7 (code evaluated at the failing input): with zero cashflows, xnpv
indexes the first element of the empty sorted list (chron_order[0]), so the
call raises IndexError before the solver can report anything; the claim's
required NoConvergence outcome is not produced. -/
theorem c7_xnpv_empty_raises_index_error :
    xnpv (fun _ _ => 1) (1/10) [] = .error .indexError := by
  simp [xnpv]

/-! ### Pending-cashflow accumulation lemmas -/

/-- Reading the pending defaultdict total of one bucket: the amount of its
pending cashflow, or 0 when the bucket has not been touched. -/
def pendingAmount (pend : List (List Char × Cashflow)) (B : List Char) : ℚ :=
  match lookupList pend B with
  | some cf => cf.amount
  | none => 0

/-- The amount that one posting contributes to bucket B inside one
transaction: its converted value if its account resolves to an asset
account having B among its ancestor-inclusive parents, else 0. -/
def postingDelta (conv : Amount → List Char → ℕ → Amount)
    (currency : List Char) (asset_account_map : List (List Char × List Char))
    (entry : Transaction) (B : List Char) (p : Posting) : ℚ :=
  match get_asset_account p.account asset_account_map with
  | none => 0
  | some bucket =>
      if B ∈ parents bucket then (conv p.weight currency entry.date).number
      else 0

theorem pendingAmount_upd (pend : List (List Char × Cashflow))
    (entry : Transaction) (a B : List Char) (value : ℚ) :
    pendingAmount (updOrInsert pend a
        (fun cf => { cf with amount := cf.amount + value })
        (defaultCashflow entry)) B
      = pendingAmount pend B + (if B = a then value else 0) := by
  by_cases h : B = a
  · subst h
    unfold pendingAmount
    rw [lookup_updOrInsert_self]
    cases hl : lookupList pend B with
    | none => simp [hl, defaultCashflow]
    | some cf => simp [hl]
  · unfold pendingAmount
    rw [lookup_updOrInsert_ne _ _ _ _ _ h]
    simp [h]

theorem pendingAmount_fold_keys (entry : Transaction) (value : ℚ) :
    ∀ (l : List (List Char)), l.Nodup →
      ∀ (pend : List (List Char × Cashflow)) (B : List Char),
      pendingAmount (l.foldl (fun pend a => updOrInsert pend a
          (fun cf => { cf with amount := cf.amount + value })
          (defaultCashflow entry)) pend) B
        = pendingAmount pend B + (if B ∈ l then value else 0) := by
  intro l
  induction l with
  | nil => intro _ pend B; simp
  | cons a l ih =>
    rintro hnd pend B
    rcases List.nodup_cons.mp hnd with ⟨hna, hnd⟩
    rw [List.foldl_cons, ih hnd, pendingAmount_upd]
    by_cases h : B = a
    · subst h
      have hBl : B ∉ l := hna
      simp [hBl]
    · simp [h, List.mem_cons]

theorem foldl_updOrInsert_keys_nodup_keys {K V : Type} [DecidableEq K]
    (f : V → V) (d : V) :
    ∀ (l : List K) (m : List (K × V)), (m.map Prod.fst).Nodup →
      ((l.foldl (fun m a => updOrInsert m a f d) m).map Prod.fst).Nodup := by
  intro l
  induction l with
  | nil => intro m hm; exact hm
  | cons a l ih =>
    intro m hm
    rw [List.foldl_cons]
    exact ih _ (updOrInsert_keys_nodup a f d hm)

theorem foldl_updOrInsert_forall_keys {K V : Type} [DecidableEq K]
    (Q : V → Prop) (f : V → V) (d : V)
    (hf : ∀ v, Q v → Q (f v)) (hd : Q (f d)) :
    ∀ (l : List K) (m : List (K × V)), (∀ p ∈ m, Q p.2) →
      ∀ q ∈ l.foldl (fun m a => updOrInsert m a f d) m, Q q.2 := by
  intro l
  induction l with
  | nil => intro m hm; exact hm
  | cons a l ih =>
    intro m hm
    rw [List.foldl_cons]
    exact ih _ (updOrInsert_forall_values Q a f d hm hf hd)

/-- The invariant shape of every pending per-transaction cashflow: kind
'txn', dated at the transaction's date, referencing the transaction. -/
def txnShape (entry : Transaction) (cf : Cashflow) : Prop :=
  cf.kind = "txn".data ∧ cf.date = some entry.date ∧ cf.entry = some entry

theorem processPosting_eq (conv : Amount → List Char → ℕ → Amount)
    (currency : List Char) (amap : List (List Char × List Char))
    (entry : Transaction) (pend : List (List Char × Cashflow))
    (posting : Posting)
    (hcur : (conv posting.weight currency entry.date).currency = currency) :
    processPosting conv currency amap entry pend posting = .ok
      (match get_asset_account posting.account amap with
       | none => pend
       | some asset_account => (parents asset_account).foldl
           (fun pend a => updOrInsert pend a
             (fun cf => { cf with amount := cf.amount +
               (conv posting.weight currency entry.date).number })
             (defaultCashflow entry)) pend) := by
  unfold processPosting
  rw [(get_number_ok_iff _ _ _).mpr ⟨hcur, rfl⟩]
  cases get_asset_account posting.account amap <;> rfl

theorem processPosting_spec (conv : Amount → List Char → ℕ → Amount)
    (currency : List Char) (amap : List (List Char × List Char))
    (entry : Transaction) (pend : List (List Char × Cashflow))
    (posting : Posting)
    (hcur : (conv posting.weight currency entry.date).currency = currency) :
    ∃ pend', processPosting conv currency amap entry pend posting = .ok pend' ∧
      (∀ B, pendingAmount pend' B = pendingAmount pend B +
        postingDelta conv currency amap entry B posting) ∧
      ((pend.map Prod.fst).Nodup → (pend'.map Prod.fst).Nodup) ∧
      ((∀ p ∈ pend, txnShape entry p.2) → ∀ p ∈ pend', txnShape entry p.2) := by
  rw [processPosting_eq conv currency amap entry pend posting hcur]
  refine ⟨_, rfl, ?_, ?_, ?_⟩
  · intro B
    unfold postingDelta
    cases hga : get_asset_account posting.account amap with
    | none => simp
    | some asset_account =>
      rw [pendingAmount_fold_keys entry
        ((conv posting.weight currency entry.date).number)
        (parents asset_account) (parents_nodup asset_account) pend B]
  · intro hnd
    cases hga : get_asset_account posting.account amap with
    | none => exact hnd
    | some asset_account =>
      exact foldl_updOrInsert_keys_nodup_keys _ _ _ pend hnd
  · intro hshape
    cases hga : get_asset_account posting.account amap with
    | none => exact hshape
    | some asset_account =>
      refine foldl_updOrInsert_forall_keys (txnShape entry) _ _ ?_ ?_ _ pend hshape
      · intro v hv
        exact ⟨hv.1, hv.2.1, hv.2.2⟩
      · exact ⟨rfl, rfl, rfl⟩

theorem pendingFold_spec (conv : Amount → List Char → ℕ → Amount)
    (currency : List Char) (amap : List (List Char × List Char))
    (entry : Transaction) :
    ∀ (ps : List Posting) (pend : List (List Char × Cashflow)),
      (∀ p ∈ ps, (conv p.weight currency entry.date).currency = currency) →
      ∃ pend', ps.foldlM (processPosting conv currency amap entry) pend
          = .ok pend' ∧
        (∀ B, pendingAmount pend' B = pendingAmount pend B +
          (ps.map (postingDelta conv currency amap entry B)).sum) ∧
        ((pend.map Prod.fst).Nodup → (pend'.map Prod.fst).Nodup) ∧
        ((∀ p ∈ pend, txnShape entry p.2) → ∀ p ∈ pend', txnShape entry p.2) := by
  intro ps
  induction ps with
  | nil =>
    intro pend _
    exact ⟨pend, rfl, by simp, id, id⟩
  | cons p ps ih =>
    intro pend hcur
    rcases processPosting_spec conv currency amap entry pend p
      (hcur p (List.mem_cons_self _ _)) with ⟨pend₁, h₁, hamt₁, hnd₁, hsh₁⟩
    rcases ih pend₁ (fun q hq => hcur q (List.mem_cons_of_mem _ hq)) with
      ⟨pend', h₂, hamt₂, hnd₂, hsh₂⟩
    refine ⟨pend', ?_, ?_, fun h => hnd₂ (hnd₁ h), fun h => hsh₂ (hsh₁ h)⟩
    · rw [List.foldlM_cons, h₁]
      exact h₂
    · intro B
      rw [hamt₂ B, hamt₁ B, List.map_cons, List.sum_cons]
      ring

/-! ### Emission lemmas -/

theorem classifyPosting_fields (amap : List (List Char × List Char))
    (k : List Char) (cf : Cashflow) (posting : Posting) :
    (classifyPosting amap k cf posting).kind = cf.kind ∧
      (classifyPosting amap k cf posting).date = cf.date ∧
      (classifyPosting amap k cf posting).amount = cf.amount ∧
      (classifyPosting amap k cf posting).entry = cf.entry := by
  refine ⟨?_, ?_, ?_, ?_⟩ <;>
    (simp only [classifyPosting]
     split
     · split <;> rfl
     · rfl)

theorem classifyFold_fields (amap : List (List Char × List Char))
    (k : List Char) :
    ∀ (ps : List Posting) (cf : Cashflow),
      (ps.foldl (classifyPosting amap k) cf).kind = cf.kind ∧
        (ps.foldl (classifyPosting amap k) cf).date = cf.date ∧
        (ps.foldl (classifyPosting amap k) cf).amount = cf.amount ∧
        (ps.foldl (classifyPosting amap k) cf).entry = cf.entry := by
  intro ps
  induction ps with
  | nil => intro cf; exact ⟨rfl, rfl, rfl, rfl⟩
  | cons p ps ih =>
    intro cf
    rw [List.foldl_cons]
    rcases ih (classifyPosting amap k cf p) with ⟨h1, h2, h3, h4⟩
    rcases classifyPosting_fields amap k cf p with ⟨g1, g2, g3, g4⟩
    exact ⟨h1.trans g1, h2.trans g2, h3.trans g3, h4.trans g4⟩

/-- The per-entry emission step of cashflows.py lines 117-129, as a
function of the finished pending map. -/
def emitPending (amap : List (List Char × List Char)) (entry : Transaction)
    (pending : List (List Char × Cashflow)) :
    List (List Char × Cashflow) :=
  pending.foldl (fun acc p =>
    if quantizeCents p.2.amount ≠ 0 then
      acc ++ [(p.1, entry.postings.foldl
        (classifyPosting amap p.1) p.2)]
    else acc) []

theorem processEntry_eq_emit (conv : Amount → List Char → ℕ → Amount)
    (currency : List Char) (amap : List (List Char × List Char))
    (entry : Transaction) (pending : List (List Char × Cashflow))
    (hpend : entry.postings.foldlM
        (processPosting conv currency amap entry) [] = .ok pending) :
    processEntry conv currency amap entry = .ok (emitPending amap entry pending) := by
  unfold processEntry
  rw [hpend]
  rfl

theorem mem_emit_fold (amap : List (List Char × List Char))
    (entry : Transaction) :
    ∀ (pending acc : List (List Char × Cashflow)) (q : List Char × Cashflow),
      q ∈ pending.foldl (fun acc p =>
        if quantizeCents p.2.amount ≠ 0 then
          acc ++ [(p.1, entry.postings.foldl
            (classifyPosting amap p.1) p.2)]
        else acc) acc →
      q ∈ acc ∨ ∃ p ∈ pending, quantizeCents p.2.amount ≠ 0 ∧
        q = (p.1, entry.postings.foldl (classifyPosting amap p.1) p.2) := by
  intro pending
  induction pending with
  | nil => intro acc q hq; exact Or.inl hq
  | cons p pending ih =>
    intro acc q hq
    rw [List.foldl_cons] at hq
    rcases ih _ q hq with hacc | ⟨r, hr, hqr⟩
    · by_cases h : quantizeCents p.2.amount ≠ 0
      · rw [if_pos h] at hacc
        rcases List.mem_append.mp hacc with hacc | hacc
        · exact Or.inl hacc
        · rcases List.mem_singleton.mp hacc with rfl
          exact Or.inr ⟨p, List.mem_cons_self _ _, h, rfl⟩
      · rw [if_neg h] at hacc
        exact Or.inl hacc
    · exact Or.inr ⟨r, List.mem_cons_of_mem _ hr, hqr⟩

theorem mem_emitPending (amap : List (List Char × List Char))
    (entry : Transaction) (pending : List (List Char × Cashflow))
    (q : List Char × Cashflow) (hq : q ∈ emitPending amap entry pending) :
    ∃ p ∈ pending, quantizeCents p.2.amount ≠ 0 ∧
      q = (p.1, entry.postings.foldl (classifyPosting amap p.1) p.2) := by
  rcases mem_emit_fold amap entry pending [] q hq with h | h
  · exact absurd h (List.not_mem_nil q)
  · exact h

theorem lookup_of_mem_nodup {K V : Type} [DecidableEq K]
    {m : List (K × V)} (hnd : (m.map Prod.fst).Nodup) {p : K × V}
    (hp : p ∈ m) : lookupList m p.1 = some p.2 := by
  induction m with
  | nil => exact absurd hp (List.not_mem_nil p)
  | cons r m ih =>
    rw [List.map_cons, List.nodup_cons] at hnd
    rcases List.mem_cons.mp hp with rfl | hp
    · rw [lookupList_cons, if_pos rfl]
    · rw [lookupList_cons]
      have hne : r.1 ≠ p.1 := by
        intro hh
        exact hnd.1 (hh ▸ List.mem_map.mpr ⟨p, hp, rfl⟩)
      rw [if_neg hne]
      exact ih hnd.2 hp

theorem quantizeCents_zero : quantizeCents 0 = 0 := by
  norm_num [quantizeCents]

theorem lookup_foldl_updOrInsert_of_ne {K V A : Type} [DecidableEq K]
    (u : A → V → V) (d : V) :
    ∀ (ps : List (K × A)) (m : List (K × V)) (k : K),
      (∀ p ∈ ps, p.1 ≠ k) →
      lookupList (ps.foldl (fun m p => updOrInsert m p.1 (u p.2) d) m) k =
        lookupList m k := by
  intro ps
  induction ps with
  | nil => intro m k _; rfl
  | cons p ps ih =>
    intro m k hne
    rw [List.foldl_cons, ih _ k (fun q hq => hne q (List.mem_cons_of_mem _ hq)),
      lookup_updOrInsert_ne]
    intro hh
    exact hne p (List.mem_cons_self _ _) hh.symm

/-! ### Claim C4 -/

/-- C4: within one transaction, a posting whose account resolves to asset
account A adds exactly its converted value to the pending per-transaction
total of the bucket for A and of every ancestor bucket of A (the elements of
parents A); consequently the contribution to any ancestor bucket equals the
contribution to A itself. -/
theorem c4_ancestor_buckets_equal_contribution
    (conv : Amount → List Char → ℕ → Amount) (currency : List Char)
    (amap : List (List Char × List Char)) (entry : Transaction)
    (pend : List (List Char × Cashflow)) (posting : Posting) (A : List Char)
    (hres : get_asset_account posting.account amap = some A)
    (hcur : (conv posting.weight currency entry.date).currency = currency) :
    ∃ pend', processPosting conv currency amap entry pend posting = .ok pend' ∧
      ∀ a ∈ parents A,
        pendingAmount pend' a = pendingAmount pend a +
            (conv posting.weight currency entry.date).number ∧
          pendingAmount pend' a - pendingAmount pend a
            = pendingAmount pend' A - pendingAmount pend A := by
  rcases processPosting_spec conv currency amap entry pend posting hcur with
    ⟨pend', h, hamt, _, _⟩
  refine ⟨pend', h, ?_⟩
  intro a ha
  have hAne : A ≠ [] := by
    intro hh
    rw [hh, parents_nil] at ha
    exact absurd ha (List.not_mem_nil a)
  have h1 := hamt a
  have h2 := hamt A
  unfold postingDelta at h1 h2
  rw [hres] at h1 h2
  simp only [ha, if_pos] at h1
  simp only [self_mem_parents hAne, if_pos] at h2
  rw [h1, h2]
  exact ⟨rfl, by ring⟩

/-- C4 witness: a concrete posting on Income:A resolving to Assets:X adds
its converted value 10 to Assets:X and to its ancestor bucket Assets. -/
theorem c4_ancestor_buckets_equal_contribution_witness :
    ∃ pend', processPosting (fun a _ _ => a) "USD".data
        [("Income:A".data, "Assets:X".data)]
        ⟨5, [⟨"Income:A".data, ⟨10, "USD".data⟩⟩]⟩ []
        ⟨"Income:A".data, ⟨10, "USD".data⟩⟩ = .ok pend' ∧
      ∀ a ∈ parents "Assets:X".data,
        pendingAmount pend' a = pendingAmount [] a + 10 ∧
          pendingAmount pend' a - pendingAmount [] a
            = pendingAmount pend' "Assets:X".data -
                pendingAmount [] "Assets:X".data := by
  exact c4_ancestor_buckets_equal_contribution (fun a _ _ => a) "USD".data
    [("Income:A".data, "Assets:X".data)]
    ⟨5, [⟨"Income:A".data, ⟨10, "USD".data⟩⟩]⟩ []
    ⟨"Income:A".data, ⟨10, "USD".data⟩⟩ "Assets:X".data
    (by simp [get_asset_account, subn]) rfl

/-! ### Claim C5 -/

/-- C5: for a transaction inside the date window all of whose postings
resolve to the same asset-account bucket A, with converted posting values
summing to zero, the pending total for A is exactly zero, it rounds to zero
at two decimal places, and no transaction-kind cashflow is emitted for A
from that transaction (neither by processEntry nor into the transaction-loop
map built from this transaction). -/
theorem c5_internal_transfer_nets_out
    (conv : Amount → List Char → ℕ → Amount) (currency : List Char)
    (amap : List (List Char × List Char)) (entry : Transaction)
    (A : List Char) (s e : Option ℕ)
    (hall : ∀ p ∈ entry.postings, get_asset_account p.account amap = some A)
    (hcur : ∀ p ∈ entry.postings,
      (conv p.weight currency entry.date).currency = currency)
    (hsum : (entry.postings.map
      (fun p => (conv p.weight currency entry.date).number)).sum = 0)
    (hwin : inWindow s e entry = true) :
    ∃ pending emitted,
      entry.postings.foldlM (processPosting conv currency amap entry) []
          = .ok pending ∧
        pendingAmount pending A = 0 ∧
        quantizeCents (pendingAmount pending A) = 0 ∧
        processEntry conv currency amap entry = .ok emitted ∧
        (∀ cf, (A, cf) ∉ emitted) ∧
        ∃ m, mainLoop conv amap s e currency [entry] = .ok m ∧
          lookupList m A = none := by
  rcases pendingFold_spec conv currency amap entry entry.postings [] hcur with
    ⟨pending, hpend, hamt, hnd, _⟩
  have hndp : (pending.map Prod.fst).Nodup := hnd (by simp)
  have hzero : pendingAmount pending A = 0 := by
    rw [hamt A]
    by_cases hA : A = []
    · have : ∀ x ∈ entry.postings.map
          (postingDelta conv currency amap entry A), x = 0 := by
        intro x hx
        rcases List.mem_map.mp hx with ⟨p, hp, rfl⟩
        unfold postingDelta
        rw [hall p hp]
        simp [hA, parents_nil]
      rw [List.sum_eq_zero this]
      simp [pendingAmount, lookupList_nil]
    · have hmap : entry.postings.map (postingDelta conv currency amap entry A)
          = entry.postings.map
            (fun p => (conv p.weight currency entry.date).number) := by
        refine List.map_congr_left ?_
        intro p hp
        unfold postingDelta
        rw [hall p hp]
        simp [self_mem_parents hA]
      rw [hmap, hsum]
      simp [pendingAmount, lookupList_nil]
  have hq0 : quantizeCents (pendingAmount pending A) = 0 := by
    rw [hzero]
    exact quantizeCents_zero
  have hemit := processEntry_eq_emit conv currency amap entry pending hpend
  have hnotin : ∀ cf, (A, cf) ∉ emitPending amap entry pending := by
    intro cf hin
    rcases mem_emitPending amap entry pending (A, cf) hin with ⟨p, hp, hq, heq⟩
    have hp1 : p.1 = A := (congrArg Prod.fst heq).symm
    have hl : lookupList pending p.1 = some p.2 := lookup_of_mem_nodup hndp hp
    rw [hp1] at hl
    have : pendingAmount pending A = p.2.amount := by
      unfold pendingAmount
      rw [hl]
    rw [this] at hzero
    rw [hzero] at hq
    exact hq quantizeCents_zero
  refine ⟨pending, emitPending amap entry pending, hpend, hzero, hq0, hemit,
    hnotin, ?_⟩
  refine ⟨(emitPending amap entry pending).foldl
    (fun m p => updOrInsert m p.1 (· ++ [p.2]) []) [], ?_, ?_⟩
  · unfold mainLoop
    rw [List.foldlM_cons]
    unfold mainLoopStep
    rw [if_pos hwin, hemit]
    rfl
  · have hne : ∀ p ∈ emitPending amap entry pending, p.1 ≠ A := by
      intro p hp hpA
      have hmem : (p.1, p.2) ∈ emitPending amap entry pending := by
        simpa using hp
      rw [hpA] at hmem
      exact hnotin p.2 hmem
    exact (lookup_foldl_updOrInsert_of_ne
      (fun (cf : Cashflow) (l : List Cashflow) => l ++ [cf]) []
      (emitPending amap entry pending) [] A hne).trans rfl

/-- C5 witness: a concrete internal transfer between two accounts that both
resolve to Assets:A nets to zero and is not emitted. -/
theorem c5_internal_transfer_nets_out_witness :
    ∃ pending emitted,
      (Transaction.postings ⟨5, [⟨"Assets:Cash".data, ⟨7, "USD".data⟩⟩,
          ⟨"Assets:Bank".data, ⟨-7, "USD".data⟩⟩]⟩).foldlM
          (processPosting (fun a _ _ => a) "USD".data
            [("Assets:Cash".data, "Assets:A".data),
             ("Assets:Bank".data, "Assets:A".data)]
            ⟨5, [⟨"Assets:Cash".data, ⟨7, "USD".data⟩⟩,
                 ⟨"Assets:Bank".data, ⟨-7, "USD".data⟩⟩]⟩) []
          = .ok pending ∧
        pendingAmount pending "Assets:A".data = 0 ∧
        quantizeCents (pendingAmount pending "Assets:A".data) = 0 ∧
        processEntry (fun a _ _ => a) "USD".data
          [("Assets:Cash".data, "Assets:A".data),
           ("Assets:Bank".data, "Assets:A".data)]
          ⟨5, [⟨"Assets:Cash".data, ⟨7, "USD".data⟩⟩,
               ⟨"Assets:Bank".data, ⟨-7, "USD".data⟩⟩]⟩ = .ok emitted ∧
        (∀ cf, ("Assets:A".data, cf) ∉ emitted) ∧
        ∃ m, mainLoop (fun a _ _ => a)
            [("Assets:Cash".data, "Assets:A".data),
             ("Assets:Bank".data, "Assets:A".data)]
            (some 3) (some 7) "USD".data
            [⟨5, [⟨"Assets:Cash".data, ⟨7, "USD".data⟩⟩,
                  ⟨"Assets:Bank".data, ⟨-7, "USD".data⟩⟩]⟩] = .ok m ∧
          lookupList m "Assets:A".data = none := by
  refine c5_internal_transfer_nets_out (fun a _ _ => a) "USD".data
    [("Assets:Cash".data, "Assets:A".data),
     ("Assets:Bank".data, "Assets:A".data)]
    ⟨5, [⟨"Assets:Cash".data, ⟨7, "USD".data⟩⟩,
         ⟨"Assets:Bank".data, ⟨-7, "USD".data⟩⟩]⟩
    "Assets:A".data (some 3) (some 7) ?_ ?_ ?_ ?_
  · intro p hp
    simp at hp
    rcases hp with rfl | rfl <;> simp [get_asset_account, subn]
  · intro p hp
    simp at hp
    rcases hp with rfl | rfl <;> rfl
  · simp
  · rfl

/-! ### Inversion lemmas for the stages -/

theorem processPosting_ok_inv
    {conv : Amount → List Char → ℕ → Amount} {currency : List Char}
    {amap : List (List Char × List Char)} {entry : Transaction}
    {pend pend' : List (List Char × Cashflow)} {posting : Posting}
    (h : processPosting conv currency amap entry pend posting = .ok pend') :
    (∃ value, get_number (conv posting.weight currency entry.date) currency
        = .ok value) ∧
      (pend' = pend ∨ ∃ value A,
        get_number (conv posting.weight currency entry.date) currency
            = .ok value ∧
          get_asset_account posting.account amap = some A ∧
          pend' = (parents A).foldl (fun pend a => updOrInsert pend a
            (fun cf => { cf with amount := cf.amount + value })
            (defaultCashflow entry)) pend) := by
  unfold processPosting at h
  rcases except_bind_ok.mp h with ⟨value, hval, hrest⟩
  refine ⟨⟨value, hval⟩, ?_⟩
  cases hga : get_asset_account posting.account amap with
  | none =>
    rw [hga] at hrest
    cases hrest
    exact Or.inl rfl
  | some A =>
    rw [hga] at hrest
    cases hrest
    exact Or.inr ⟨value, A, hval, rfl, rfl⟩

theorem processPosting_shape_inv
    {conv : Amount → List Char → ℕ → Amount} {currency : List Char}
    {amap : List (List Char × List Char)} {entry : Transaction}
    {pend pend' : List (List Char × Cashflow)} {posting : Posting}
    (hsh : ∀ p ∈ pend, txnShape entry p.2)
    (h : processPosting conv currency amap entry pend posting = .ok pend') :
    ∀ p ∈ pend', txnShape entry p.2 := by
  rcases (processPosting_ok_inv h).2 with rfl | ⟨value, A, _, _, rfl⟩
  · exact hsh
  · refine foldl_updOrInsert_forall_keys (txnShape entry) _ _ ?_ ?_ _ pend hsh
    · intro v hv
      exact ⟨hv.1, hv.2.1, hv.2.2⟩
    · exact ⟨rfl, rfl, rfl⟩

theorem processPosting_nodup_inv
    {conv : Amount → List Char → ℕ → Amount} {currency : List Char}
    {amap : List (List Char × List Char)} {entry : Transaction}
    {pend pend' : List (List Char × Cashflow)} {posting : Posting}
    (hnd : (pend.map Prod.fst).Nodup)
    (h : processPosting conv currency amap entry pend posting = .ok pend') :
    (pend'.map Prod.fst).Nodup := by
  rcases (processPosting_ok_inv h).2 with rfl | ⟨value, A, _, _, rfl⟩
  · exact hnd
  · exact foldl_updOrInsert_keys_nodup_keys _ _ _ pend hnd

theorem processEntry_ok_inv
    {conv : Amount → List Char → ℕ → Amount} {currency : List Char}
    {amap : List (List Char × List Char)} {entry : Transaction}
    {emitted : List (List Char × Cashflow)}
    (h : processEntry conv currency amap entry = .ok emitted) :
    ∃ pending, entry.postings.foldlM
        (processPosting conv currency amap entry) [] = .ok pending ∧
      (pending.map Prod.fst).Nodup ∧
      (∀ p ∈ pending, txnShape entry p.2) ∧
      emitted = emitPending amap entry pending := by
  unfold processEntry at h
  rcases except_bind_ok.mp h with ⟨pending, hpend, hrest⟩
  refine ⟨pending, hpend, ?_, ?_, ?_⟩
  · exact foldlM_except_inv _ (fun s => (s.map Prod.fst).Nodup)
      (fun s a s' hs hstep => processPosting_nodup_inv hs hstep)
      entry.postings [] pending (by simp) hpend
  · exact foldlM_except_inv _ (fun s => ∀ p ∈ s, txnShape entry p.2)
      (fun s a s' hs hstep => processPosting_shape_inv hs hstep)
      entry.postings [] pending (by simp) hpend
  · cases hrest
    rfl

theorem emitted_shape
    {amap : List (List Char × List Char)} {entry : Transaction}
    {pending : List (List Char × Cashflow)}
    (hsh : ∀ p ∈ pending, txnShape entry p.2) :
    ∀ q ∈ emitPending amap entry pending, txnShape entry q.2 := by
  intro q hq
  rcases mem_emitPending amap entry pending q hq with ⟨p, hp, _, rfl⟩
  rcases classifyFold_fields amap p.1 entry.postings p.2 with ⟨h1, h2, _, h4⟩
  rcases hsh p hp with ⟨g1, g2, g3⟩
  exact ⟨h1.trans g1, h2.trans g2, h4.trans g3⟩

theorem mainLoopStep_ok_inv
    {conv : Amount → List Char → ℕ → Amount}
    {amap : List (List Char × List Char)} {s e : Option ℕ}
    {currency : List Char} {m m' : List (List Char × List Cashflow)}
    {entry : Transaction}
    (h : mainLoopStep conv amap s e currency m entry = .ok m') :
    (inWindow s e entry = true →
      ∃ emitted, processEntry conv currency amap entry = .ok emitted ∧
        m' = emitted.foldl
          (fun m p => updOrInsert m p.1 (· ++ [p.2]) []) m) ∧
    (¬ inWindow s e entry = true → m' = m) := by
  unfold mainLoopStep at h
  by_cases hw : inWindow s e entry = true
  · rw [if_pos hw] at h
    rcases except_bind_ok.mp h with ⟨emitted, hem, hpure⟩
    cases hpure
    exact ⟨fun _ => ⟨emitted, hem, rfl⟩, fun hc => absurd hw hc⟩
  · rw [if_neg hw] at h
    cases h
    exact ⟨fun hc => absurd hc hw, fun _ => rfl⟩

theorem mainLoop_kinds
    {conv : Amount → List Char → ℕ → Amount}
    {amap : List (List Char × List Char)} {s e : Option ℕ}
    {currency : List Char} {entries : List Transaction}
    {m : List (List Char × List Cashflow)}
    (h : mainLoop conv amap s e currency entries = .ok m) :
    ∀ p ∈ m, ∀ cf ∈ p.2, cf.kind = "txn".data := by
  unfold mainLoop at h
  refine foldlM_except_inv _
    (fun mm => ∀ p ∈ mm, ∀ cf ∈ p.2, cf.kind = "txn".data)
    ?_ entries [] m (by simp) h
  intro mm entry mm' hmm hstep
  rcases mainLoopStep_ok_inv hstep with ⟨hin, hout⟩
  by_cases hw : inWindow s e entry = true
  · rcases hin hw with ⟨emitted, hem, rfl⟩
    rcases processEntry_ok_inv hem with ⟨pending, _, _, hshape, rfl⟩
    refine foldl_updOrInsert_forall
      (fun (cf : Cashflow) (l : List Cashflow) => l ++ [cf]) []
      (fun l => ∀ cf ∈ l, cf.kind = "txn".data) _ mm hmm ?_ ?_
    · intro p hp l hl cf hcf
      rcases List.mem_append.mp hcf with hcf | hcf
      · exact hl cf hcf
      · rcases List.mem_singleton.mp hcf with rfl
        exact (emitted_shape hshape p hp).1
    · intro p hp cf hcf
      rcases List.mem_singleton.mp (by simpa using hcf) with rfl
      exact (emitted_shape hshape p hp).1
  · rw [hout hw]
    exact hmm

theorem pendingFold_ok_get_number
    {conv : Amount → List Char → ℕ → Amount} {currency : List Char}
    {amap : List (List Char × List Char)} {entry : Transaction} :
    ∀ {ps : List Posting} {pend pend' : List (List Char × Cashflow)},
      ps.foldlM (processPosting conv currency amap entry) pend = .ok pend' →
      ∀ p ∈ ps, (conv p.weight currency entry.date).currency = currency := by
  intro ps
  induction ps with
  | nil =>
    intro pend pend' _ p hp
    exact absurd hp (List.not_mem_nil p)
  | cons q ps ih =>
    intro pend pend' h p hp
    rw [List.foldlM_cons] at h
    rcases except_bind_ok.mp h with ⟨pend₁, h₁, h₂⟩
    rcases List.mem_cons.mp hp with rfl | hp
    · rcases (processPosting_ok_inv h₁).1 with ⟨v, hv⟩
      exact (get_number_isOk_iff _ _).mp ⟨v, hv⟩
    · exact ih h₂ p hp

theorem mainLoop_ok_currency
    {conv : Amount → List Char → ℕ → Amount}
    {amap : List (List Char × List Char)} {s e : Option ℕ}
    {currency : List Char} :
    ∀ {entries : List Transaction} {m0 m : List (List Char × List Cashflow)},
      entries.foldlM (mainLoopStep conv amap s e currency) m0 = .ok m →
      ∀ entry ∈ entries, inWindow s e entry = true →
        ∀ p ∈ entry.postings,
          (conv p.weight currency entry.date).currency = currency := by
  intro entries
  induction entries with
  | nil =>
    intro m0 m _ entry hentry
    exact absurd hentry (List.not_mem_nil entry)
  | cons t entries ih =>
    intro m0 m h entry hentry hwin
    rw [List.foldlM_cons] at h
    rcases except_bind_ok.mp h with ⟨m1, h1, h2⟩
    rcases List.mem_cons.mp hentry with rfl | hentry
    · rcases (mainLoopStep_ok_inv h1).1 hwin with ⟨emitted, hem, _⟩
      rcases processEntry_ok_inv hem with ⟨pending, hpend, _, _, _⟩
      exact pendingFold_ok_get_number hpend
    · exact ih h2 entry hentry hwin

/-! ### Market-value stage lemmas -/

theorem mv_step_ok_inv
    {accountValue : List Transaction → List Char → List Char → Option Amount}
    {asset_account_map : List (List Char × List Char)}
    {realizedEntries : List Transaction} {currency : List Char}
    {mv mv' : List (List Char × ℚ)} {acct : List Char}
    (h : (if ¬ is_assets acct then pure mv
      else match get_asset_account acct asset_account_map with
        | none => pure mv
        | some balance_asset_account =>
          match accountValue realizedEntries acct currency with
          | none => pure mv
          | some units => do
              let market_value ← get_number units currency
              pure (updOrInsert mv balance_asset_account (· + market_value) 0))
        = (.ok mv' : Except PyErr (List (List Char × ℚ)))) :
    mv' = mv ∨ ∃ baa units v,
      get_asset_account acct asset_account_map = some baa ∧
      accountValue realizedEntries acct currency = some units ∧
      get_number units currency = .ok v ∧
      mv' = updOrInsert mv baa (· + v) 0 := by
  by_cases ha : ¬ is_assets acct
  · rw [if_pos ha] at h
    cases h
    exact Or.inl rfl
  · rw [if_neg ha] at h
    cases hga : get_asset_account acct asset_account_map with
    | none =>
      rw [hga] at h
      cases h
      exact Or.inl rfl
    | some baa =>
      rw [hga] at h
      cases hav : accountValue realizedEntries acct currency with
      | none =>
        rw [hav] at h
        cases h
        exact Or.inl rfl
      | some units =>
        rw [hav] at h
        rcases except_bind_ok.mp h with ⟨v, hv, hpure⟩
        cases hpure
        exact Or.inr ⟨baa, units, v, rfl, rfl, hv, rfl⟩

theorem mv_keys_nodup
    {accountValue : List Transaction → List Char → List Char → Option Amount}
    {iterAccounts : List Transaction → List (List Char)}
    {entries : List Transaction}
    {asset_account_map : List (List Char × List Char)}
    {date : Option ℕ} {currency : List Char} {mvs : List (List Char × ℚ)}
    (h : get_market_values_by_asset_account accountValue iterAccounts entries
      asset_account_map date currency = .ok mvs) :
    (mvs.map Prod.fst).Nodup := by
  unfold get_market_values_by_asset_account at h
  refine foldlM_except_inv _ (fun mv => (mv.map Prod.fst).Nodup) ?_ _ [] mvs
    (by simp) h
  intro s a s' hs hstep
  rcases mv_step_ok_inv hstep with rfl | ⟨baa, units, v, _, _, _, rfl⟩
  · exact hs
  · exact updOrInsert_keys_nodup baa (· + v) 0 hs

theorem mv_ok_of_currency
    {accountValue : List Transaction → List Char → List Char → Option Amount}
    {iterAccounts : List Transaction → List (List Char)}
    {entries : List Transaction}
    {asset_account_map : List (List Char × List Char)}
    {date : Option ℕ} {currency : List Char}
    (hv : ∀ ts acct units, accountValue ts acct currency = some units →
      units.currency = currency) :
    ∃ mvs, get_market_values_by_asset_account accountValue iterAccounts
      entries asset_account_map date currency = .ok mvs := by
  have hstep : ∀ s : List (List Char × ℚ), (fun _ => True) s →
      ∀ acct : List Char, ∃ s',
        (if ¬ is_assets acct then pure s
         else match get_asset_account acct asset_account_map with
           | none => pure s
           | some balance_asset_account =>
             match accountValue (realizedEntriesFor entries date) acct
                 currency with
             | none => pure s
             | some units => do
                 let market_value ← get_number units currency
                 pure (updOrInsert s balance_asset_account
                   (· + market_value) 0))
          = (.ok s' : Except PyErr (List (List Char × ℚ))) ∧
        (fun _ => True) s' := by
    intro s _ acct
    by_cases ha : ¬ is_assets acct
    · refine ⟨s, ?_, trivial⟩
      rw [if_pos ha]
      rfl
    · cases hga : get_asset_account acct asset_account_map with
      | none =>
        refine ⟨s, ?_, trivial⟩
        rw [if_neg ha]
        rfl
      | some baa =>
        cases hav : accountValue (realizedEntriesFor entries date)
            acct currency with
        | none =>
          refine ⟨s, ?_, trivial⟩
          rw [if_neg ha]
          rfl
        | some units =>
          have hnum : get_number units currency = .ok units.number :=
            (get_number_ok_iff units currency units.number).mpr
              ⟨hv _ _ _ hav, rfl⟩
          refine ⟨updOrInsert s baa (· + units.number) 0, ?_, trivial⟩
          rw [if_neg ha]
          show (do
            let market_value ← get_number units currency
            pure (updOrInsert s baa (fun x => x + market_value) 0) :
              Except PyErr (List (List Char × ℚ))) = _
          rw [hnum]
          rfl
  rcases foldlM_except_ok _ (fun _ => True) hstep
    (iterAccounts (realizedEntriesFor entries date)) [] trivial with
    ⟨mvs, hmvs, -⟩
  exact ⟨mvs, hmvs⟩

/-! ### Boundary-stage lemmas -/

theorem addStartingBalances_none
    (accountValue : List Transaction → List Char → List Char → Option Amount)
    (iterAccounts : List Transaction → List (List Char))
    (entries : List Transaction)
    (asset_account_map : List (List Char × List Char))
    (currency : List Char) (m : List (List Char × List Cashflow)) :
    addStartingBalances accountValue iterAccounts entries asset_account_map
      none currency m = .ok m := rfl

theorem addStartingBalances_some_ok_iff
    {accountValue : List Transaction → List Char → List Char → Option Amount}
    {iterAccounts : List Transaction → List (List Char)}
    {entries : List Transaction}
    {asset_account_map : List (List Char × List Char)}
    {s : ℕ} {currency : List Char}
    {m m' : List (List Char × List Cashflow)} :
    addStartingBalances accountValue iterAccounts entries asset_account_map
        (some s) currency m = .ok m' ↔
      ∃ mvs, get_market_values_by_asset_account accountValue iterAccounts
          entries asset_account_map (some s) currency = .ok mvs ∧
        m' = mvs.foldl (fun m p =>
          updOrInsert m p.1
            (fun l => ⟨some s, p.2, "starting balance".data, [], [], none⟩ :: l)
            []) m := by
  unfold addStartingBalances
  constructor
  · intro h
    rcases except_bind_ok.mp h with ⟨mvs, hmvs, hpure⟩
    cases hpure
    exact ⟨mvs, hmvs, rfl⟩
  · rintro ⟨mvs, hmvs, rfl⟩
    rw [except_bind_ok]
    exact ⟨mvs, hmvs, rfl⟩

theorem addEndingBalances_ok_iff
    {accountValue : List Transaction → List Char → List Char → Option Amount}
    {iterAccounts : List Transaction → List (List Char)}
    {entries : List Transaction}
    {asset_account_map : List (List Char × List Char)}
    {e : Option ℕ} {currency : List Char}
    {m m' : List (List Char × List Cashflow)} :
    addEndingBalances accountValue iterAccounts entries asset_account_map
        e currency m = .ok m' ↔
      ∃ mvs, get_market_values_by_asset_account accountValue iterAccounts
          entries asset_account_map (e.map (· + 1)) currency = .ok mvs ∧
        m' = mvs.foldl (fun m p =>
          updOrInsert m p.1
            (fun l => l ++ [⟨e, -p.2, "ending balance".data, [], [], none⟩])
            []) m := by
  unfold addEndingBalances
  constructor
  · intro h
    rcases except_bind_ok.mp h with ⟨mvs, hmvs, hpure⟩
    cases hpure
    exact ⟨mvs, hmvs, rfl⟩
  · rintro ⟨mvs, hmvs, rfl⟩
    rw [except_bind_ok]
    exact ⟨mvs, hmvs, rfl⟩

theorem gcbaa_ok_iff
    {conv : Amount → List Char → ℕ → Amount}
    {accountValue : List Transaction → List Char → List Char → Option Amount}
    {iterAccounts : List Transaction → List (List Char)}
    {entries : List Transaction}
    {asset_account_map : List (List Char × List Char)}
    {s e : Option ℕ} {currency : List Char}
    {m : List (List Char × List Cashflow)} :
    get_cashflows_by_asset_account conv accountValue iterAccounts entries
        asset_account_map s e currency = .ok m ↔
      ∃ m1 m2, mainLoop conv asset_account_map s e currency entries = .ok m1 ∧
        addStartingBalances accountValue iterAccounts entries
          asset_account_map s currency m1 = .ok m2 ∧
        addEndingBalances accountValue iterAccounts entries
          asset_account_map e currency m2 = .ok m := by
  unfold get_cashflows_by_asset_account
  constructor
  · intro h
    rcases except_bind_ok.mp h with ⟨m1, h1, h⟩
    rcases except_bind_ok.mp h with ⟨m2, h2, h⟩
    rcases except_bind_ok.mp h with ⟨m3, h3, hpure⟩
    cases hpure
    exact ⟨m1, m2, h1, h2, h3⟩
  · rintro ⟨m1, m2, h1, h2, h3⟩
    rw [except_bind_ok]
    refine ⟨m1, h1, ?_⟩
    rw [except_bind_ok]
    refine ⟨m2, h2, ?_⟩
    rw [except_bind_ok]
    exact ⟨m, h3, rfl⟩

theorem lookup_foldl_updOrInsert_some {K V A : Type} [DecidableEq K]
    (u : A → V → V) (d : V) {ps : List (K × A)}
    (hnd : (ps.map Prod.fst).Nodup) {k : K} {a : A}
    (ha : lookupList ps k = some a) (m : List (K × V)) :
    lookupList (ps.foldl (fun m p => updOrInsert m p.1 (u p.2) d) m) k =
      some (u a ((lookupList m k).getD d)) := by
  have h := lookup_foldl_updOrInsert u d ps hnd m k
  rw [ha] at h
  exact h

theorem lookup_foldl_updOrInsert_none {K V A : Type} [DecidableEq K]
    (u : A → V → V) (d : V) {ps : List (K × A)}
    (hnd : (ps.map Prod.fst).Nodup) {k : K}
    (ha : lookupList ps k = none) (m : List (K × V)) :
    lookupList (ps.foldl (fun m p => updOrInsert m p.1 (u p.2) d) m) k =
      lookupList m k := by
  have h := lookup_foldl_updOrInsert u d ps hnd m k
  rw [ha] at h
  exact h

theorem endFold_forall (e : Option ℕ) (mvs : List (List Char × ℚ))
    (m : List (List Char × List Cashflow)) (Q : Cashflow → Prop)
    (hm : ∀ p ∈ m, ∀ cf ∈ p.2, Q cf)
    (hQ : ∀ v : ℚ, Q ⟨e, -v, "ending balance".data, [], [], none⟩) :
    ∀ p ∈ mvs.foldl (fun m p =>
        updOrInsert m p.1
          (fun l => l ++ [⟨e, -p.2, "ending balance".data, [], [], none⟩])
          []) m, ∀ cf ∈ p.2, Q cf := by
  refine foldl_updOrInsert_forall
    (fun (v : ℚ) (l : List Cashflow) =>
      l ++ [⟨e, -v, "ending balance".data, [], [], none⟩]) []
    (fun l => ∀ cf ∈ l, Q cf) mvs m hm ?_ ?_
  · intro p _ l hl cf hcf
    rcases List.mem_append.mp hcf with hcf | hcf
    · exact hl cf hcf
    · rcases List.mem_singleton.mp hcf with rfl
      exact hQ p.2
  · intro p _ cf hcf
    rcases List.mem_singleton.mp (by simpa using hcf) with rfl
    exact hQ p.2

/-! ### Claim C1 -/

/-- C1: a starting-balance cashflow (dated at the start date, amount equal
to the bucket's market value computed from the transactions strictly before
the start date) is prepended to a bucket's list only when the start date is
supplied, and an ending-balance cashflow (dated at end_date_inclusive,
amount the negation of the market value computed with cutoff end+1 day, or
no cutoff when the end date is absent) is appended for every bucket whose
computed ending market-value mapping has an entry, regardless of whether
the start or end date is supplied. -/
theorem c1_boundary_balance_cashflows
    (conv : Amount → List Char → ℕ → Amount)
    (accountValue : List Transaction → List Char → List Char → Option Amount)
    (iterAccounts : List Transaction → List (List Char))
    (entries : List Transaction) (amap : List (List Char × List Char))
    (s? e? : Option ℕ) (currency : List Char)
    (m : List (List Char × List Cashflow))
    (hres : get_cashflows_by_asset_account conv accountValue iterAccounts
      entries amap s? e? currency = .ok m) :
    (s? = none → ∀ p ∈ m, ∀ cf ∈ p.2, cf.kind ≠ "starting balance".data) ∧
    (∀ s, s? = some s →
      ∃ mvs, get_market_values_by_asset_account accountValue iterAccounts
          entries amap (some s) currency = .ok mvs ∧
        get_market_values_by_asset_account accountValue iterAccounts
            entries amap (some s) currency
          = get_market_values_by_asset_account accountValue iterAccounts
              (entries.filter (fun t => t.date < s)) amap none currency ∧
        ∀ aa v, lookupList mvs aa = some v →
          ∃ l, lookupList m aa = some l ∧
            l.head? = some ⟨some s, v, "starting balance".data, [], [], none⟩) ∧
    (∃ mve, get_market_values_by_asset_account accountValue iterAccounts
        entries amap (e?.map (· + 1)) currency = .ok mve ∧
      ∀ aa v, lookupList mve aa = some v →
        ∃ l, lookupList m aa = some l ∧
          l.getLast? = some ⟨e?, -v, "ending balance".data, [], [], none⟩) := by
  rcases gcbaa_ok_iff.mp hres with ⟨m1, m2, h1, h2, h3⟩
  rcases addEndingBalances_ok_iff.mp h3 with ⟨mve, hmve, rfl⟩
  have hndE := mv_keys_nodup hmve
  refine ⟨?_, ?_, ?_⟩
  · rintro rfl
    have hm2 : m2 = m1 :=
      (Except.ok.inj ((addStartingBalances_none accountValue iterAccounts
        entries amap currency m1).symm.trans h2)).symm
    subst hm2
    have hk := mainLoop_kinds h1
    refine endFold_forall e? mve m2
      (fun cf => cf.kind ≠ "starting balance".data) ?_ ?_
    · intro p hp cf hcf
      rw [hk p hp cf hcf]
      decide
    · intro v
      show "ending balance".data ≠ "starting balance".data
      decide
  · intro s hs
    subst hs
    rcases addStartingBalances_some_ok_iff.mp h2 with ⟨mvs, hmvs, rfl⟩
    have hndS := mv_keys_nodup hmvs
    refine ⟨mvs, hmvs, rfl, ?_⟩
    intro aa v hv
    have hs2 := lookup_foldl_updOrInsert_some
      (fun (v : ℚ) (l : List Cashflow) =>
        ⟨some s, v, "starting balance".data, [], [], none⟩ :: l) []
      hndS hv m1
    cases hE : lookupList mve aa with
    | some w =>
      have hm := lookup_foldl_updOrInsert_some
        (fun (v : ℚ) (l : List Cashflow) =>
          l ++ [⟨e?, -v, "ending balance".data, [], [], none⟩]) []
        hndE hE (mvs.foldl (fun m p =>
          updOrInsert m p.1
            (fun l => ⟨some s, p.2, "starting balance".data, [], [], none⟩ :: l)
            []) m1)
      rw [hs2] at hm
      simp only [Option.getD_some] at hm
      refine ⟨_, hm, ?_⟩
      simp
    | none =>
      have hm := lookup_foldl_updOrInsert_none
        (fun (v : ℚ) (l : List Cashflow) =>
          l ++ [⟨e?, -v, "ending balance".data, [], [], none⟩]) []
        hndE hE (mvs.foldl (fun m p =>
          updOrInsert m p.1
            (fun l => ⟨some s, p.2, "starting balance".data, [], [], none⟩ :: l)
            []) m1)
      rw [hs2] at hm
      exact ⟨_, hm, by simp⟩
  · refine ⟨mve, hmve, ?_⟩
    intro aa v hv
    have hm := lookup_foldl_updOrInsert_some
      (fun (v : ℚ) (l : List Cashflow) =>
        l ++ [⟨e?, -v, "ending balance".data, [], [], none⟩]) []
      hndE hv m2
    exact ⟨_, hm, List.getLast?_concat _⟩

/-! ### Concrete collaborator instances used by witnesses and
counterexamples -/

/-- The target currency of the concrete scenarios. -/
def usd : List Char := "USD".data

/-- A conversion that leaves amounts unchanged (they are already in USD). -/
def convId : Amount → List Char → ℕ → Amount := fun a _ _ => a

/-- One identity mapping rule for the asset account Assets:A. -/
def amapA : List (List Char × List Char) :=
  [("Assets:A".data, "Assets:A".data)]

/-- A realization whose only child account is Assets:A. -/
def iaA : List Transaction → List (List Char) := fun _ => ["Assets:A".data]

/-- A valuation engine that values every balance at 7 USD. -/
def av7 : List Transaction → List Char → List Char → Option Amount :=
  fun _ _ _ => some ⟨7, usd⟩

/-- A valuation engine that values every balance at -5 USD (a short or
overdrawn asset position). -/
def avNeg5 : List Transaction → List Char → List Char → Option Amount :=
  fun _ _ _ => some ⟨-5, usd⟩

/-- A realization listing every posting account of the transactions. -/
def iaPost : List Transaction → List (List Char) := fun txns =>
  (txns.map (fun t => t.postings.map Posting.account)).flatten

/-- Rules mapping an income and an expense account to two asset-account
buckets. -/
def amapXY : List (List Char × List Char) :=
  [("Income:A".data, "Assets:X".data), ("Expenses:B".data, "Assets:Y".data)]

/-- A transaction dated 5 moving 10 USD from Income:A to Expenses:B. -/
def txn1 : Transaction :=
  ⟨5, [⟨"Income:A".data, ⟨10, usd⟩⟩, ⟨"Expenses:B".data, ⟨-10, usd⟩⟩]⟩

/-- C1 witness: the boundary statement applied to a concrete run with one
valued bucket, start 3 and end 7 (starting balance 7 prepended, ending
balance -7 appended). -/
theorem c1_boundary_balance_cashflows_witness :
    ((some 3 : Option ℕ) = none →
      ∀ p ∈ [("Assets:A".data,
          [(⟨some 3, 7, "starting balance".data, [], [], none⟩ : Cashflow),
           ⟨some 7, -7, "ending balance".data, [], [], none⟩])],
        ∀ cf ∈ p.2, Cashflow.kind cf ≠ "starting balance".data) ∧
    (∀ s, (some 3 : Option ℕ) = some s →
      ∃ mvs, get_market_values_by_asset_account av7 iaA [] amapA (some s) usd
          = .ok mvs ∧
        get_market_values_by_asset_account av7 iaA [] amapA (some s) usd
          = get_market_values_by_asset_account av7 iaA
              (List.filter (fun t => t.date < s) []) amapA none usd ∧
        ∀ aa v, lookupList mvs aa = some v →
          ∃ l, lookupList [("Assets:A".data,
              [(⟨some 3, 7, "starting balance".data, [], [], none⟩ : Cashflow),
               ⟨some 7, -7, "ending balance".data, [], [], none⟩])] aa
              = some l ∧
            l.head? = some ⟨some s, v, "starting balance".data, [], [], none⟩) ∧
    (∃ mve, get_market_values_by_asset_account av7 iaA [] amapA
        ((some 7 : Option ℕ).map (· + 1)) usd = .ok mve ∧
      ∀ aa v, lookupList mve aa = some v →
        ∃ l, lookupList [("Assets:A".data,
            [(⟨some 3, 7, "starting balance".data, [], [], none⟩ : Cashflow),
             ⟨some 7, -7, "ending balance".data, [], [], none⟩])] aa
            = some l ∧
          l.getLast? = some ⟨some 7, -v, "ending balance".data, [], [], none⟩) := by
  exact c1_boundary_balance_cashflows convId av7 iaA [] amapA
    (some 3) (some 7) usd
    [("Assets:A".data,
      [⟨some 3, 7, "starting balance".data, [], [], none⟩,
       ⟨some 7, -7, "ending balance".data, [], [], none⟩])]
    (by simp [get_cashflows_by_asset_account, mainLoop, mainLoopStep,
      addStartingBalances, addEndingBalances,
      get_market_values_by_asset_account, realizedEntriesFor,
      get_asset_account, subn, is_assets, get_number, updOrInsert, lookupList,
      usd, convId, amapA, iaA, av7, Bind.bind, Except.bind, Pure.pure,
      Except.pure])

/-! ### Claim C2 -/

/-- C2 (amended): when a start date is supplied, every bucket that has an
entry in the computed starting market-value mapping has a non-empty cashflow
list whose first element has kind starting balance, is dated exactly at the
start date, and has amount equal to that computed starting market value (not
necessarily non-negative); and every bucket with an entry in the computed
ending market-value mapping has as last element an ending-balance cashflow
dated exactly end_date_inclusive whose amount is the negation of that
bucket's computed ending market value. -/
theorem c2_boundary_first_last_invariant
    (conv : Amount → List Char → ℕ → Amount)
    (accountValue : List Transaction → List Char → List Char → Option Amount)
    (iterAccounts : List Transaction → List (List Char))
    (entries : List Transaction) (amap : List (List Char × List Char))
    (s? e? : Option ℕ) (currency : List Char)
    (m : List (List Char × List Cashflow))
    (hres : get_cashflows_by_asset_account conv accountValue iterAccounts
      entries amap s? e? currency = .ok m) :
    (∀ s, s? = some s →
      ∀ mvs, get_market_values_by_asset_account accountValue iterAccounts
          entries amap (some s) currency = .ok mvs →
        ∀ aa v, lookupList mvs aa = some v →
          ∃ l, lookupList m aa = some l ∧ l ≠ [] ∧
            ∃ cf, l.head? = some cf ∧ cf.kind = "starting balance".data ∧
              cf.date = some s ∧ cf.amount = v) ∧
    (∀ mve, get_market_values_by_asset_account accountValue iterAccounts
        entries amap (e?.map (· + 1)) currency = .ok mve →
      ∀ aa v, lookupList mve aa = some v →
        ∃ l, lookupList m aa = some l ∧
          ∃ cf, l.getLast? = some cf ∧ cf.kind = "ending balance".data ∧
            cf.date = e? ∧ cf.amount = -v) := by
  rcases gcbaa_ok_iff.mp hres with ⟨m1, m2, h1, h2, h3⟩
  rcases addEndingBalances_ok_iff.mp h3 with ⟨mve, hmve, rfl⟩
  have hndE := mv_keys_nodup hmve
  constructor
  · intro s hs mvs0 hmvs0 aa v hv
    subst hs
    rcases addStartingBalances_some_ok_iff.mp h2 with ⟨mvs, hmvs, rfl⟩
    have hmm : mvs0 = mvs := Except.ok.inj (hmvs0.symm.trans hmvs)
    subst hmm
    have hndS := mv_keys_nodup hmvs
    have hs2 := lookup_foldl_updOrInsert_some
      (fun (v : ℚ) (l : List Cashflow) =>
        ⟨some s, v, "starting balance".data, [], [], none⟩ :: l) []
      hndS hv m1
    cases hE : lookupList mve aa with
    | some w =>
      have hm := lookup_foldl_updOrInsert_some
        (fun (v : ℚ) (l : List Cashflow) =>
          l ++ [⟨e?, -v, "ending balance".data, [], [], none⟩]) []
        hndE hE (mvs0.foldl (fun m p =>
          updOrInsert m p.1
            (fun l => ⟨some s, p.2, "starting balance".data, [], [], none⟩ :: l)
            []) m1)
      rw [hs2] at hm
      simp only [Option.getD_some] at hm
      refine ⟨_, hm, by simp, ?_⟩
      exact ⟨⟨some s, v, "starting balance".data, [], [], none⟩,
        by simp, rfl, rfl, rfl⟩
    | none =>
      have hm := lookup_foldl_updOrInsert_none
        (fun (v : ℚ) (l : List Cashflow) =>
          l ++ [⟨e?, -v, "ending balance".data, [], [], none⟩]) []
        hndE hE (mvs0.foldl (fun m p =>
          updOrInsert m p.1
            (fun l => ⟨some s, p.2, "starting balance".data, [], [], none⟩ :: l)
            []) m1)
      rw [hs2] at hm
      refine ⟨_, hm, by simp, ?_⟩
      exact ⟨⟨some s, v, "starting balance".data, [], [], none⟩,
        rfl, rfl, rfl, rfl⟩
  · intro mve0 hmve0 aa v hv
    have hmm : mve0 = mve := Except.ok.inj (hmve0.symm.trans hmve)
    subst hmm
    have hm := lookup_foldl_updOrInsert_some
      (fun (v : ℚ) (l : List Cashflow) =>
        l ++ [⟨e?, -v, "ending balance".data, [], [], none⟩]) []
      hndE hv m2
    exact ⟨_, hm, ⟨e?, -v, "ending balance".data, [], [], none⟩,
      List.getLast?_concat _, rfl, rfl, rfl⟩

/-- C2 counterexample: with a start date supplied, the bucket Assets:X is
non-empty but its first cashflow has kind txn, not starting balance (its
account held no balance before the window start), and in a second run the
starting-balance cashflow that is first in Assets:A's list has the negative
amount -5, so the first cashflow is neither always a starting balance nor
always non-negative. -/
theorem c2_first_cashflow_counterexample :
    (get_cashflows_by_asset_account convId av7 iaPost [txn1] amapXY
        (some 3) (some 7) usd = .ok
        [("Assets:X".data,
          [⟨some 5, 10, "txn".data, ["Expenses:B".data], [], some txn1⟩]),
         ("Assets:Y".data,
          [⟨some 5, -10, "txn".data, [], ["Income:A".data], some txn1⟩])] ∧
      ([(⟨some 5, 10, "txn".data, ["Expenses:B".data], [], some txn1⟩ :
          Cashflow)].head?.map Cashflow.kind = some "txn".data) ∧
      "txn".data ≠ "starting balance".data) ∧
    (get_cashflows_by_asset_account convId avNeg5 iaA [] amapA
        (some 3) (some 7) usd = .ok
        [("Assets:A".data,
          [⟨some 3, -5, "starting balance".data, [], [], none⟩,
           ⟨some 7, 5, "ending balance".data, [], [], none⟩])] ∧
      ¬ (0 : ℚ) ≤ -5) := by
  refine ⟨⟨?_, by simp, by decide⟩, ⟨?_, by norm_num⟩⟩
  · have q10 : quantizeCents (10 : ℚ) = 10 := by norm_num [quantizeCents]
    have qm10 : quantizeCents (-10 : ℚ) = -10 := by norm_num [quantizeCents]
    have hgt : (10 : ℚ) > 0 := by norm_num
    have hngt : ¬ ((-10 : ℚ) > 0) := by norm_num
    simp [get_cashflows_by_asset_account, mainLoop, mainLoopStep,
      processEntry, processPosting, classifyPosting, emitPending, inWindow,
      addStartingBalances, addEndingBalances,
      get_market_values_by_asset_account, realizedEntriesFor,
      get_asset_account, subn, is_assets, get_number, updOrInsert, lookupList,
      defaultCashflow, addSet, parents_nil, parents_cons, dropLastComponent,
      q10, qm10, quantizeCents_zero, hgt, hngt,
      usd, convId, amapXY, iaPost, av7, txn1,
      Bind.bind, Except.bind, Pure.pure, Except.pure]
  · simp [get_cashflows_by_asset_account, mainLoop, mainLoopStep,
      addStartingBalances, addEndingBalances,
      get_market_values_by_asset_account, realizedEntriesFor,
      get_asset_account, subn, is_assets, get_number, updOrInsert, lookupList,
      usd, convId, amapA, iaA, avNeg5,
      Bind.bind, Except.bind, Pure.pure, Except.pure]

/-- C2 witness: the amended first/last invariant applied at a concrete run
with one valued bucket. -/
theorem c2_boundary_first_last_invariant_witness :
    (∀ s, (some 3 : Option ℕ) = some s →
      ∀ mvs, get_market_values_by_asset_account av7 iaA [] amapA (some s) usd
          = .ok mvs →
        ∀ aa v, lookupList mvs aa = some v →
          ∃ l, lookupList [("Assets:A".data,
              [(⟨some 3, 7, "starting balance".data, [], [], none⟩ : Cashflow),
               ⟨some 7, -7, "ending balance".data, [], [], none⟩])] aa
              = some l ∧ l ≠ [] ∧
            ∃ cf, l.head? = some cf ∧ cf.kind = "starting balance".data ∧
              cf.date = some s ∧ cf.amount = v) ∧
    (∀ mve, get_market_values_by_asset_account av7 iaA [] amapA
        ((some 7 : Option ℕ).map (· + 1)) usd = .ok mve →
      ∀ aa v, lookupList mve aa = some v →
        ∃ l, lookupList [("Assets:A".data,
            [(⟨some 3, 7, "starting balance".data, [], [], none⟩ : Cashflow),
             ⟨some 7, -7, "ending balance".data, [], [], none⟩])] aa
            = some l ∧
          ∃ cf, l.getLast? = some cf ∧ cf.kind = "ending balance".data ∧
            cf.date = some 7 ∧ cf.amount = -v) := by
  exact c2_boundary_first_last_invariant convId av7 iaA [] amapA
    (some 3) (some 7) usd
    [("Assets:A".data,
      [⟨some 3, 7, "starting balance".data, [], [], none⟩,
       ⟨some 7, -7, "ending balance".data, [], [], none⟩])]
    (by simp [get_cashflows_by_asset_account, mainLoop, mainLoopStep,
      addStartingBalances, addEndingBalances,
      get_market_values_by_asset_account, realizedEntriesFor,
      get_asset_account, subn, is_assets, get_number, updOrInsert, lookupList,
      usd, convId, amapA, iaA, av7, Bind.bind, Except.bind, Pure.pure,
      Except.pure])

/-! ### Claim C8 -/

theorem foldlM_except_ok_mem {ε σ α : Type} (f : σ → α → Except ε σ)
    (P : σ → Prop) :
    ∀ (l : List α),
      (∀ s, P s → ∀ a ∈ l, ∃ s', f s a = .ok s' ∧ P s') →
      ∀ s : σ, P s → ∃ s', l.foldlM f s = .ok s' ∧ P s' := by
  intro l
  induction l with
  | nil =>
    intro _ s hs
    exact ⟨s, rfl, hs⟩
  | cons a l ih =>
    intro hstep s hs
    rcases hstep s hs a (List.mem_cons_self _ _) with ⟨s₁, h₁, hP₁⟩
    rcases ih (fun s hs b hb => hstep s hs b (List.mem_cons_of_mem _ hb))
      s₁ hP₁ with ⟨s', h₂, hP'⟩
    refine ⟨s', ?_, hP'⟩
    rw [List.foldlM_cons, h₁]
    exact h₂

/-- C8: whenever some in-window posting's converted amount has a currency
different from the requested target currency, the whole extraction call
returns an error (so no partial cashflow mapping reaches the caller);
conversely, when every converted amount (both from postings and from the
valuation engine) carries the target currency, the call returns a mapping. -/
theorem c8_currency_mismatch_aborts
    (conv : Amount → List Char → ℕ → Amount)
    (accountValue : List Transaction → List Char → List Char → Option Amount)
    (iterAccounts : List Transaction → List (List Char))
    (entries : List Transaction) (amap : List (List Char × List Char))
    (s? e? : Option ℕ) (currency : List Char) :
    ((∃ entry ∈ entries, inWindow s? e? entry = true ∧
        ∃ p ∈ entry.postings,
          (conv p.weight currency entry.date).currency ≠ currency) →
      ∃ err, get_cashflows_by_asset_account conv accountValue iterAccounts
        entries amap s? e? currency = .error err) ∧
    ((∀ entry ∈ entries, inWindow s? e? entry = true →
        ∀ p ∈ entry.postings,
          (conv p.weight currency entry.date).currency = currency) →
      (∀ ts acct units, accountValue ts acct currency = some units →
        units.currency = currency) →
      ∃ m, get_cashflows_by_asset_account conv accountValue iterAccounts
        entries amap s? e? currency = .ok m) := by
  constructor
  · rintro ⟨entry, hentry, hwin, p, hp, hbad⟩
    cases hr : get_cashflows_by_asset_account conv accountValue iterAccounts
        entries amap s? e? currency with
    | error err => exact ⟨err, rfl⟩
    | ok m =>
      exfalso
      rcases gcbaa_ok_iff.mp hr with ⟨m1, m2, h1, _, _⟩
      have h1' : entries.foldlM
          (mainLoopStep conv amap s? e? currency) [] = .ok m1 := h1
      exact hbad (mainLoop_ok_currency h1' entry hentry hwin p hp)
  · intro hcur hval
    have hml : ∃ m1, mainLoop conv amap s? e? currency entries = .ok m1 := by
      have hstep : ∀ s : List (List Char × List Cashflow), (fun _ => True) s →
          ∀ entry ∈ entries, ∃ s',
            mainLoopStep conv amap s? e? currency s entry = .ok s' ∧
            (fun _ => True) s' := by
        intro s _ entry hentry
        by_cases hw : inWindow s? e? entry = true
        · rcases pendingFold_spec conv currency amap entry entry.postings []
            (hcur entry hentry hw) with ⟨pending, hpend, -, -, -⟩
          have hem := processEntry_eq_emit conv currency amap entry pending
            hpend
          refine ⟨(emitPending amap entry pending).foldl
            (fun m p => updOrInsert m p.1 (· ++ [p.2]) []) s, ?_, trivial⟩
          unfold mainLoopStep
          rw [if_pos hw, hem]
          rfl
        · refine ⟨s, ?_, trivial⟩
          unfold mainLoopStep
          rw [if_neg hw]
          rfl
      rcases foldlM_except_ok_mem (mainLoopStep conv amap s? e? currency)
        (fun _ => True) entries hstep [] trivial with ⟨m1, hm1, -⟩
      exact ⟨m1, hm1⟩
    rcases hml with ⟨m1, hm1⟩
    rcases @mv_ok_of_currency accountValue iterAccounts entries amap
      (e?.map (· + 1)) currency hval with ⟨mve, hmve⟩
    cases s? with
    | none =>
      have h3 : addEndingBalances accountValue iterAccounts entries amap
          e? currency m1 = .ok (mve.foldl (fun m p =>
            updOrInsert m p.1
              (fun l => l ++ [⟨e?, -p.2, "ending balance".data, [], [], none⟩])
              []) m1) :=
        addEndingBalances_ok_iff.mpr ⟨mve, hmve, rfl⟩
      exact ⟨_, gcbaa_ok_iff.mpr ⟨m1, m1, hm1,
        addStartingBalances_none accountValue iterAccounts entries amap
          currency m1, h3⟩⟩
    | some s =>
      rcases @mv_ok_of_currency accountValue iterAccounts entries amap
        (some s) currency hval with ⟨mvs, hmvs⟩
      have h2 : addStartingBalances accountValue iterAccounts entries amap
          (some s) currency m1 = .ok (mvs.foldl (fun m p =>
            updOrInsert m p.1
              (fun l =>
                ⟨some s, p.2, "starting balance".data, [], [], none⟩ :: l)
              []) m1) :=
        addStartingBalances_some_ok_iff.mpr ⟨mvs, hmvs, rfl⟩
      have h3 : addEndingBalances accountValue iterAccounts entries amap
          e? currency (mvs.foldl (fun m p =>
            updOrInsert m p.1
              (fun l =>
                ⟨some s, p.2, "starting balance".data, [], [], none⟩ :: l)
              []) m1) = .ok (mve.foldl (fun m p =>
            updOrInsert m p.1
              (fun l => l ++ [⟨e?, -p.2, "ending balance".data, [], [], none⟩])
              []) (mvs.foldl (fun m p =>
            updOrInsert m p.1
              (fun l =>
                ⟨some s, p.2, "starting balance".data, [], [], none⟩ :: l)
              []) m1)) :=
        addEndingBalances_ok_iff.mpr ⟨mve, hmve, rfl⟩
      exact ⟨_, gcbaa_ok_iff.mpr ⟨m1, _, hm1, h2, h3⟩⟩

/-- A conversion that produces amounts in EUR, breaking the valuation
precondition for a USD extraction. -/
def convEUR : Amount → List Char → ℕ → Amount :=
  fun a _ _ => ⟨a.number, "EUR".data⟩

/-- C8 witness: a run with an in-window posting converting to EUR aborts
with an error, and a run whose conversions all carry USD returns a
mapping. -/
theorem c8_currency_mismatch_aborts_witness :
    (∃ err, get_cashflows_by_asset_account convEUR av7 iaPost [txn1] amapXY
      (some 3) (some 7) usd = .error err) ∧
    (∃ m, get_cashflows_by_asset_account convId av7 iaA [] amapA
      (some 3) (some 7) usd = .ok m) := by
  constructor
  · refine (c8_currency_mismatch_aborts convEUR av7 iaPost [txn1] amapXY
      (some 3) (some 7) usd).1 ?_
    refine ⟨txn1, List.mem_cons_self _ _, rfl, ⟨"Income:A".data, ⟨10, usd⟩⟩,
      ?_, ?_⟩
    · simp [txn1]
    · decide
  · refine (c8_currency_mismatch_aborts convId av7 iaA [] amapA
      (some 3) (some 7) usd).2 ?_ ?_
    · intro entry hentry
      exact absurd hentry (List.not_mem_nil entry)
    · intro ts acct units h
      have hu : units = ⟨7, usd⟩ := (Option.some.inj h).symm
      rw [hu]

/-! ### Claim C9 -/

/-- C9: when the extraction produces no bucket for the placeholder asset
account, get_cashflows raises KeyError instead of returning an empty list,
because it indexes the returned mapping by the placeholder key
unconditionally. -/
theorem c9_get_cashflows_key_error
    (conv : Amount → List Char → ℕ → Amount)
    (accountValue : List Transaction → List Char → List Char → Option Amount)
    (iterAccounts : List Transaction → List (List Char))
    (entries : List Transaction)
    (interesting_accounts internal_accounts : List (List Char))
    (date_from : Option ℕ) (date_to : ℕ) (currency : List Char)
    (m : List (List Char × List Cashflow))
    (h : get_cashflows_by_asset_account conv accountValue iterAccounts entries
      (dictOfPairs ((interesting_accounts ++ internal_accounts).map
        (fun pattern => (pattern, placeholder_asset_account))))
      date_from (some date_to) currency = .ok m)
    (h2 : lookupList m placeholder_asset_account = none) :
    get_cashflows conv accountValue iterAccounts entries interesting_accounts
      internal_accounts date_from date_to currency = .error .keyError := by
  simp only [get_cashflows]
  rw [h]
  show (match lookupList m placeholder_asset_account with
    | some cashflows => pure cashflows
    | none => (.error .keyError : Except PyErr (List Cashflow))) = _
  rw [h2]

/-- C9 witness: with no entries and no account patterns, no placeholder
bucket is produced and get_cashflows returns KeyError. -/
theorem c9_get_cashflows_key_error_witness :
    get_cashflows convId av7 iaA [] [] [] none 1 usd = .error .keyError := by
  refine c9_get_cashflows_key_error convId av7 iaA [] [] [] none 1 usd [] ?_ ?_
  · rfl
  · rfl

/-! ### Claim C6 -/

/-- Two cashflows both carry dates and they are in non-decreasing order. -/
def cfDateLE (a b : Cashflow) : Prop :=
  ∃ d1 d2, a.date = some d1 ∧ b.date = some d2 ∧ d1 ≤ d2

/-- The invariant of a transaction-loop cashflow: dated inside the window,
not after any remaining transaction. -/
def InvWindow (s e : ℕ) (rest : List Transaction) (cf : Cashflow) : Prop :=
  ∃ d, cf.date = some d ∧ s ≤ d ∧ d ≤ e ∧ ∀ t ∈ rest, d ≤ t.date

theorem inWindow_some_iff (s e : ℕ) (t : Transaction) :
    inWindow (some s) (some e) t = true ↔ s ≤ t.date ∧ t.date ≤ e := by
  simp [inWindow]

theorem lookupList_mem {K V : Type} [DecidableEq K] {m : List (K × V)}
    {k : K} {v : V} (h : lookupList m k = some v) : ∃ p ∈ m, p.2 = v := by
  unfold lookupList at h
  cases hf : m.find? (fun p => p.1 = k) with
  | none =>
    rw [hf] at h
    cases h
  | some p =>
    rw [hf] at h
    exact ⟨p, List.mem_of_find?_eq_some hf, Option.some.inj h⟩

theorem mainLoop_sorted_aux
    (conv : Amount → List Char → ℕ → Amount)
    (amap : List (List Char × List Char)) (currency : List Char) (s e : ℕ) :
    ∀ entries : List Transaction,
      entries.Pairwise (fun a b => a.date ≤ b.date) →
      ∀ (mm m : List (List Char × List Cashflow)),
      (∀ p ∈ mm, List.Pairwise cfDateLE p.2 ∧
        ∀ cf ∈ p.2, InvWindow s e entries cf) →
      entries.foldlM (mainLoopStep conv amap (some s) (some e) currency) mm
        = .ok m →
      ∀ p ∈ m, List.Pairwise cfDateLE p.2 ∧
        ∀ cf ∈ p.2, InvWindow s e [] cf := by
  intro entries
  induction entries with
  | nil =>
    intro _ mm m hInv h
    rw [List.foldlM_nil] at h
    cases h
    exact hInv
  | cons t rest ih =>
    intro hsort mm m hInv h
    rw [List.foldlM_cons] at h
    rcases except_bind_ok.mp h with ⟨mm₁, h₁, h₂⟩
    rcases List.pairwise_cons.mp hsort with ⟨htrest, hsortrest⟩
    refine ih hsortrest mm₁ m ?_ h₂
    rcases mainLoopStep_ok_inv h₁ with ⟨hin, hout⟩
    by_cases hw : inWindow (some s) (some e) t = true
    · rcases hin hw with ⟨emitted, hem, rfl⟩
      rcases processEntry_ok_inv hem with ⟨pending, _, _, hshape, rfl⟩
      have hwin := (inWindow_some_iff s e t).mp hw
      have hemshape := @emitted_shape amap t pending hshape
      have hstep : ∀ q ∈ emitPending amap t pending, ∀ l,
          (List.Pairwise cfDateLE l ∧ ∀ cf ∈ l, InvWindow s e (t :: rest) cf) →
          (List.Pairwise cfDateLE (l ++ [q.2]) ∧
            ∀ cf ∈ l ++ [q.2], InvWindow s e (t :: rest) cf) := by
        intro q hq l hl
        have hqdate : q.2.date = some t.date := (hemshape q hq).2.1
        have hqinv : InvWindow s e (t :: rest) q.2 := by
          refine ⟨t.date, hqdate, hwin.1, hwin.2, ?_⟩
          intro t' ht'
          rcases List.mem_cons.mp ht' with rfl | ht'
          · exact le_refl _
          · exact htrest t' ht'
        constructor
        · rw [List.pairwise_append]
          refine ⟨hl.1, List.pairwise_singleton _ _, ?_⟩
          intro x hx y hy
          rcases List.mem_singleton.mp hy with rfl
          rcases hl.2 x hx with ⟨d, hd, _, _, hdr⟩
          exact ⟨d, t.date, hd, hqdate, hdr t (List.mem_cons_self _ _)⟩
        · intro cf hcf
          rcases List.mem_append.mp hcf with hcf | hcf
          · exact hl.2 cf hcf
          · rcases List.mem_singleton.mp hcf with rfl
            exact hqinv
      have hall := foldl_updOrInsert_forall
        (fun (cf : Cashflow) (l : List Cashflow) => l ++ [cf]) []
        (fun l => List.Pairwise cfDateLE l ∧
          ∀ cf ∈ l, InvWindow s e (t :: rest) cf)
        (emitPending amap t pending) mm hInv
        (fun q hq l hl => hstep q hq l hl)
        (fun q hq => hstep q hq [] ⟨List.Pairwise.nil, by simp⟩)
      intro p hp
      rcases hall p hp with ⟨hpw, hcf⟩
      refine ⟨hpw, fun cf hcfm => ?_⟩
      rcases hcf cf hcfm with ⟨d, hd, hsd, hde, hdr⟩
      exact ⟨d, hd, hsd, hde, fun t' ht' => hdr t' (List.mem_cons_of_mem _ ht')⟩
    · rw [hout hw]
      intro p hp
      rcases hInv p hp with ⟨hpw, hcf⟩
      refine ⟨hpw, fun cf hcfm => ?_⟩
      rcases hcf cf hcfm with ⟨d, hd, h1d, h2d, h3d⟩
      exact ⟨d, hd, h1d, h2d, fun t' ht' => h3d t' (List.mem_cons_of_mem _ ht')⟩

/-- C6 (amended): given chronologically ordered entries, both window bounds
supplied and start ≤ end, every bucket's cashflow list in the returned
mapping is in non-decreasing date order, with any starting-balance element
dated at the window start and any ending-balance element dated at the window
end. -/
theorem c6_sorted_cashflows
    (conv : Amount → List Char → ℕ → Amount)
    (accountValue : List Transaction → List Char → List Char → Option Amount)
    (iterAccounts : List Transaction → List (List Char))
    (entries : List Transaction) (amap : List (List Char × List Char))
    (s e : ℕ) (currency : List Char) (m : List (List Char × List Cashflow))
    (hsort : entries.Pairwise (fun a b => a.date ≤ b.date))
    (hse : s ≤ e)
    (hres : get_cashflows_by_asset_account conv accountValue iterAccounts
      entries amap (some s) (some e) currency = .ok m) :
    ∀ aa l, lookupList m aa = some l →
      List.Pairwise cfDateLE l ∧
      (∀ cf ∈ l, cf.kind = "starting balance".data → cf.date = some s) ∧
      (∀ cf ∈ l, cf.kind = "ending balance".data → cf.date = some e) := by
  rcases gcbaa_ok_iff.mp hres with ⟨m1, m2, h1, h2, h3⟩
  have h1' : entries.foldlM
      (mainLoopStep conv amap (some s) (some e) currency) [] = .ok m1 := h1
  have hInv1 := mainLoop_sorted_aux conv amap currency s e entries hsort []
    m1 (by simp) h1'
  have hkind1 := mainLoop_kinds h1
  have hm1 : ∀ p ∈ m1, List.Pairwise cfDateLE p.2 ∧
      ∀ cf ∈ p.2, ∃ d, cf.date = some d ∧ s ≤ d ∧ d ≤ e ∧
        (cf.kind = "starting balance".data → d = s) ∧
        (cf.kind = "ending balance".data → d = e) := by
    intro p hp
    refine ⟨(hInv1 p hp).1, fun cf hcf => ?_⟩
    rcases (hInv1 p hp).2 cf hcf with ⟨d, hd, h1d, h2d, _⟩
    refine ⟨d, hd, h1d, h2d, ?_, ?_⟩
    · intro hk
      rw [hkind1 p hp cf hcf] at hk
      exact absurd hk (by decide)
    · intro hk
      rw [hkind1 p hp cf hcf] at hk
      exact absurd hk (by decide)
  rcases addStartingBalances_some_ok_iff.mp h2 with ⟨mvs, hmvs, rfl⟩
  have hm2 : ∀ p ∈ mvs.foldl (fun m p =>
      updOrInsert m p.1
        (fun l => ⟨some s, p.2, "starting balance".data, [], [], none⟩ :: l)
        []) m1,
      List.Pairwise cfDateLE p.2 ∧
      ∀ cf ∈ p.2, ∃ d, cf.date = some d ∧ s ≤ d ∧ d ≤ e ∧
        (cf.kind = "starting balance".data → d = s) ∧
        (cf.kind = "ending balance".data → d = e) := by
    have hstep : ∀ (v : ℚ) (l : List Cashflow),
        (List.Pairwise cfDateLE l ∧
          ∀ cf ∈ l, ∃ d, cf.date = some d ∧ s ≤ d ∧ d ≤ e ∧
            (cf.kind = "starting balance".data → d = s) ∧
            (cf.kind = "ending balance".data → d = e)) →
        (List.Pairwise cfDateLE
            ((⟨some s, v, "starting balance".data, [], [], none⟩ : Cashflow)
              :: l) ∧
          ∀ cf ∈ (⟨some s, v, "starting balance".data, [], [], none⟩ :
              Cashflow) :: l,
            ∃ d, cf.date = some d ∧ s ≤ d ∧ d ≤ e ∧
              (cf.kind = "starting balance".data → d = s) ∧
              (cf.kind = "ending balance".data → d = e)) := by
      intro v l hl
      constructor
      · rw [List.pairwise_cons]
        refine ⟨?_, hl.1⟩
        intro b hb
        rcases hl.2 b hb with ⟨d, hd, h1d, _⟩
        exact ⟨s, d, rfl, hd, h1d⟩
      · intro cf hcf
        rcases List.mem_cons.mp hcf with rfl | hcf
        · exact ⟨s, rfl, le_refl s, hse, fun _ => rfl,
            fun hk => absurd hk
              (show ¬ ("starting balance".data = "ending balance".data)
                by decide)⟩
        · exact hl.2 cf hcf
    refine foldl_updOrInsert_forall
      (fun (v : ℚ) (l : List Cashflow) =>
        ⟨some s, v, "starting balance".data, [], [], none⟩ :: l) []
      _ mvs m1 hm1 (fun p _ l hl => hstep p.2 l hl)
      (fun p _ => hstep p.2 [] ⟨List.Pairwise.nil, by simp⟩)
  rcases addEndingBalances_ok_iff.mp h3 with ⟨mve, hmve, rfl⟩
  have hm3 : ∀ p ∈ mve.foldl (fun m p =>
      updOrInsert m p.1
        (fun l => l ++ [⟨some e, -p.2, "ending balance".data, [], [], none⟩])
        []) (mvs.foldl (fun m p =>
          updOrInsert m p.1
            (fun l =>
              ⟨some s, p.2, "starting balance".data, [], [], none⟩ :: l)
            []) m1),
      List.Pairwise cfDateLE p.2 ∧
      ∀ cf ∈ p.2, ∃ d, cf.date = some d ∧ s ≤ d ∧ d ≤ e ∧
        (cf.kind = "starting balance".data → d = s) ∧
        (cf.kind = "ending balance".data → d = e) := by
    have hstep : ∀ (v : ℚ) (l : List Cashflow),
        (List.Pairwise cfDateLE l ∧
          ∀ cf ∈ l, ∃ d, cf.date = some d ∧ s ≤ d ∧ d ≤ e ∧
            (cf.kind = "starting balance".data → d = s) ∧
            (cf.kind = "ending balance".data → d = e)) →
        (List.Pairwise cfDateLE
            (l ++ [(⟨some e, -v, "ending balance".data, [], [], none⟩ :
              Cashflow)]) ∧
          ∀ cf ∈ l ++ [(⟨some e, -v, "ending balance".data, [], [], none⟩ :
              Cashflow)],
            ∃ d, cf.date = some d ∧ s ≤ d ∧ d ≤ e ∧
              (cf.kind = "starting balance".data → d = s) ∧
              (cf.kind = "ending balance".data → d = e)) := by
      intro v l hl
      constructor
      · rw [List.pairwise_append]
        refine ⟨hl.1, List.pairwise_singleton _ _, ?_⟩
        intro x hx y hy
        rcases List.mem_singleton.mp hy with rfl
        rcases hl.2 x hx with ⟨d, hd, _, h2d, _⟩
        exact ⟨d, e, hd, rfl, h2d⟩
      · intro cf hcf
        rcases List.mem_append.mp hcf with hcf | hcf
        · exact hl.2 cf hcf
        · rcases List.mem_singleton.mp hcf with rfl
          exact ⟨e, rfl, hse, le_refl e,
            fun hk => absurd hk
              (show ¬ ("ending balance".data = "starting balance".data)
                by decide),
            fun _ => rfl⟩
    refine foldl_updOrInsert_forall
      (fun (v : ℚ) (l : List Cashflow) =>
        l ++ [⟨some e, -v, "ending balance".data, [], [], none⟩]) []
      _ mve _ hm2 (fun p _ l hl => hstep p.2 l hl)
      (fun p _ => hstep p.2 [] ⟨List.Pairwise.nil, by simp⟩)
  intro aa l hl
  rcases lookupList_mem hl with ⟨pp, hpp, hpl⟩
  obtain ⟨hq1, hq2⟩ := hm3 pp hpp
  rw [hpl] at hq1 hq2
  refine ⟨hq1, ?_, ?_⟩
  · intro cf hcf hk
    rcases hq2 cf hcf with ⟨d, hd, _, _, hks, _⟩
    rw [hd, hks hk]
  · intro cf hcf hk
    rcases hq2 cf hcf with ⟨d, hd, _, _, _, hke⟩
    rw [hd, hke hk]

/-- C6 counterexample: with both bounds supplied but start (7) after end
(3) and a chronologically ordered (empty) entry list, the bucket Assets:A
gets the list [starting balance dated 7, ending balance dated 3], which is
not in non-decreasing date order. -/
theorem c6_sorted_cashflows_counterexample :
    get_cashflows_by_asset_account convId av7 iaA [] amapA
        (some 7) (some 3) usd = .ok
      [("Assets:A".data,
        [⟨some 7, 7, "starting balance".data, [], [], none⟩,
         ⟨some 3, -7, "ending balance".data, [], [], none⟩])] ∧
    List.Pairwise (fun (a b : Transaction) => a.date ≤ b.date)
      ([] : List Transaction) ∧
    ¬ List.Pairwise cfDateLE
        [⟨some 7, 7, "starting balance".data, [], [], none⟩,
         ⟨some 3, -7, "ending balance".data, [], [], none⟩] := by
  refine ⟨?_, List.Pairwise.nil, ?_⟩
  · simp [get_cashflows_by_asset_account, mainLoop, mainLoopStep,
      addStartingBalances, addEndingBalances,
      get_market_values_by_asset_account, realizedEntriesFor,
      get_asset_account, subn, is_assets, get_number, updOrInsert, lookupList,
      usd, convId, amapA, iaA, av7, Bind.bind, Except.bind, Pure.pure,
      Except.pure]
  · intro hp
    rcases List.pairwise_cons.mp hp with ⟨hrel, _⟩
    rcases hrel _ (List.mem_cons_self _ _) with ⟨d1, d2, h1, h2, hle⟩
    have e1 : 7 = d1 := Option.some.inj h1
    have e2 : 3 = d2 := Option.some.inj h2
    omega

/-- C6 witness: the amended ordering statement applied at a concrete run
with start 3 ≤ end 7, evaluated at the bucket Assets:A. -/
theorem c6_sorted_cashflows_witness :
    List.Pairwise cfDateLE
        [(⟨some 3, 7, "starting balance".data, [], [], none⟩ : Cashflow),
         ⟨some 7, -7, "ending balance".data, [], [], none⟩] ∧
      (∀ cf ∈ [(⟨some 3, 7, "starting balance".data, [], [], none⟩ :
            Cashflow),
          ⟨some 7, -7, "ending balance".data, [], [], none⟩],
        Cashflow.kind cf = "starting balance".data →
          Cashflow.date cf = some 3) ∧
      (∀ cf ∈ [(⟨some 3, 7, "starting balance".data, [], [], none⟩ :
            Cashflow),
          ⟨some 7, -7, "ending balance".data, [], [], none⟩],
        Cashflow.kind cf = "ending balance".data →
          Cashflow.date cf = some 7) := by
  refine c6_sorted_cashflows convId av7 iaA [] amapA 3 7 usd
    [("Assets:A".data,
      [⟨some 3, 7, "starting balance".data, [], [], none⟩,
       ⟨some 7, -7, "ending balance".data, [], [], none⟩])]
    List.Pairwise.nil (by omega) ?_ "Assets:A".data
    [⟨some 3, 7, "starting balance".data, [], [], none⟩,
     ⟨some 7, -7, "ending balance".data, [], [], none⟩] rfl
  simp [get_cashflows_by_asset_account, mainLoop, mainLoopStep,
    addStartingBalances, addEndingBalances,
    get_market_values_by_asset_account, realizedEntriesFor,
    get_asset_account, subn, is_assets, get_number, updOrInsert, lookupList,
    usd, convId, amapA, iaA, av7, Bind.bind, Except.bind, Pure.pure,
    Except.pure]
